import Mathlib

/-!
Verification of the voice-backend speech sidecar (STT/TTS gRPC server).

This file shallowly embeds the data model and the operations of the
sidecar's Python source and proves properties of the embedding:

* `AudioRingBuffer` — `sidecar/stt/vad.py` (identical algorithm in
  `SessionAudioBuffer`, `sidecar/domain/entities.py`);
* `VADProcessor.append` — `sidecar/stt/vad.py`;
* `STTEngineManager.try_fallback` — `sidecar/stt/engine_manager.py`;
* `TranscriptionService._transcribe_sync` — `sidecar/stt/transcription.py`;
* `STTPipeline.process_audio` / `_add_eou_probability` — `sidecar/stt/pipeline.py`;
* `merge_transcripts`, `deduplicate_words` — `sidecar/domain/transcript_processor.py`;
* `chunk_text` — `sidecar/shared/utils.py`;
* `SpeechState` — `sidecar/grpc_server.py`.

Numpy float32 sample values are abstracted as `Int` (all claims are about
which samples land where, never about float arithmetic); Python strings are
`List Char`; Python `None`-able values are `Option`; external neural models
(Silero VAD, the STT engine, the EOU classifier) are oracle inputs.
-/

set_option linter.unusedVariables false

namespace VoiceBackend

/-- Python-style modular index `i % c` (result in `[0, c)` for `c > 0`),
modelling Python's `%` on possibly negative indices of a circular buffer. -/
def cyc (c : Nat) (i : Int) : Nat := (i % (c : Int)).toNat

/-- The last `n` elements of a list (Python `xs[-n:]`, all of `xs` if `n ≥ len(xs)`). -/
def lastN (n : Nat) (l : List α) : List α := l.drop (l.length - n)

/-- Model of the numpy slice assignment `f[p:p+len(xs)] = xs` on an array
represented as a function out of positions. -/
def arrWrite (f : Nat → Int) (p : Nat) (xs : List Int) : Nat → Int :=
  fun i => if p ≤ i ∧ i < p + xs.length then xs.getD (i - p) 0 else f i

/-- Model of the numpy slice read `f[a:b]`. -/
def arrSlice (f : Nat → Int) (a b : Nat) : List Int :=
  (List.range (b - a)).map (fun i => f (a + i))

@[simp] theorem length_arrSlice (f : Nat → Int) (a b : Nat) :
    (arrSlice f a b).length = b - a := by
  simp [arrSlice]

@[simp] theorem length_lastN (n : Nat) (l : List α) :
    (lastN n l).length = min n l.length := by
  simp [lastN]; omega

theorem cyc_lt {c : Nat} (hc : 0 < c) (i : Int) : cyc c i < c := by
  have h1 : 0 ≤ i % (c : Int) := Int.emod_nonneg i (by exact_mod_cast hc.ne')
  have h2 : i % (c : Int) < (c : Int) := Int.emod_lt_of_pos i (by exact_mod_cast hc)
  unfold cyc
  omega

theorem cyc_of_nonneg {c : Nat} {i : Int} (h0 : 0 ≤ i) (h1 : i < (c : Int)) :
    cyc c i = i.toNat := by
  unfold cyc
  rw [Int.emod_eq_of_lt h0 h1]

theorem cyc_of_neg {c : Nat} {i : Int} (h0 : -(c : Int) ≤ i) (h1 : i < 0) :
    cyc c i = (i + c).toNat := by
  unfold cyc
  have h2 : i % (c : Int) = (i + c) % (c : Int) := by
    conv_rhs => rw [show i + (c : Int) = i + (c : Int) * 1 by ring]
    rw [Int.add_mul_emod_self_left]
  rw [h2, Int.emod_eq_of_lt (by omega) (by omega)]

theorem cyc_congr {c : Nat} {i j : Int} (h : i % (c : Int) = j % (c : Int)) :
    cyc c i = cyc c j := by
  unfold cyc; rw [h]

theorem cyc_sub_cap {c : Nat} (i : Int) : cyc c (i - c) = cyc c i := by
  apply cyc_congr
  conv_rhs => rw [show i = (i - c) + c * 1 by ring]
  rw [Int.add_mul_emod_self_left]

theorem cyc_emod_add {c : Nat} (x y : Int) : cyc c ((x % (c : Int)) + y) = cyc c (x + y) := by
  apply cyc_congr
  rw [Int.add_emod (x % (c : Int)) y, Int.emod_emod_of_dvd _ dvd_rfl, ← Int.add_emod]

/-! ## `AudioRingBuffer` (`sidecar/stt/vad.py`)

Fixed-capacity circular float buffer. `SessionAudioBuffer.get_tail`
(`sidecar/domain/entities.py`) is letter-for-letter the same algorithm as
`AudioRingBuffer.get_last_n`, so this embedding covers both. -/

structure AudioRingBuffer where
  /-- `len(self._buffer)` — the fixed capacity. -/
  cap : Nat
  /-- `self._buffer` — the physical array (positions `≥ cap` are irrelevant). -/
  buf : Nat → Int
  /-- `self._write_pos`. -/
  wp : Nat
  /-- `self._length`. -/
  len : Nat

namespace AudioRingBuffer

/-- `__init__(max_samples)`: zero buffer, cursor 0, length 0. -/
def init (cap : Nat) : AudioRingBuffer := ⟨cap, fun _ => 0, 0, 0⟩

/-- `AudioRingBuffer.append` (vad.py lines 109-129).  The three cases are:
empty input (early return), `n >= len(buffer)` (overwrite the whole buffer
with the input's last `cap` samples, cursor to 0), and the general write in
one piece (`end_pos <= len(buffer)`) or two pieces across the wrap. -/
def append (s : AudioRingBuffer) (audio : List Int) : AudioRingBuffer :=
  if audio.length = 0 then s
  else if s.cap ≤ audio.length then
    { s with buf := arrWrite s.buf 0 (audio.drop (audio.length - s.cap)), wp := 0, len := s.cap }
  else if s.wp + audio.length ≤ s.cap then
    { s with buf := arrWrite s.buf s.wp audio,
             wp := (s.wp + audio.length) % s.cap,
             len := min (s.len + audio.length) s.cap }
  else
    { s with buf := arrWrite (arrWrite s.buf s.wp (audio.take (s.cap - s.wp))) 0
                      (audio.drop (s.cap - s.wp)),
             wp := (s.wp + audio.length) % s.cap,
             len := min (s.len + audio.length) s.cap }

/-- `AudioRingBuffer.get_last_n` (vad.py lines 131-142): `n = min(n, length)`,
`end_pos = write_pos`, `start_pos = (end_pos - n) % len(buffer)`, then a copy
in one or two pieces. -/
def get_last_n (s : AudioRingBuffer) (n0 : Nat) : List Int :=
  if min n0 s.len = 0 then []
  else if cyc s.cap ((s.wp : Int) - (min n0 s.len : Nat)) < s.wp then
    arrSlice s.buf (cyc s.cap ((s.wp : Int) - (min n0 s.len : Nat))) s.wp
  else
    arrSlice s.buf (cyc s.cap ((s.wp : Int) - (min n0 s.len : Nat))) s.cap
      ++ arrSlice s.buf 0 s.wp

/-- `AudioRingBuffer.get_all`. -/
def get_all (s : AudioRingBuffer) : List Int := s.get_last_n s.len

/-- Body of `AudioRingBuffer.get_slice` (vad.py lines 147-160) after both
sample indices have been clamped into `[0, length]`: `oldest_pos =
(write_pos - length) % len(buffer)`, then a copy in one or two pieces. -/
def clampedSlice (s : AudioRingBuffer) (a b : Nat) : List Int :=
  if b ≤ a then []
  else if (cyc s.cap ((s.wp : Int) - s.len) + a) % s.cap
      < (cyc s.cap ((s.wp : Int) - s.len) + b) % s.cap then
    arrSlice s.buf ((cyc s.cap ((s.wp : Int) - s.len) + a) % s.cap)
      ((cyc s.cap ((s.wp : Int) - s.len) + b) % s.cap)
  else
    arrSlice s.buf ((cyc s.cap ((s.wp : Int) - s.len) + a) % s.cap) s.cap
      ++ arrSlice s.buf 0 ((cyc s.cap ((s.wp : Int) - s.len) + b) % s.cap)

/-- `AudioRingBuffer.get_slice` (vad.py lines 147-160): clamp
(`max(0, min(·, length))`) and read. -/
def get_slice (s : AudioRingBuffer) (start_sample end_sample : Int) : List Int :=
  clampedSlice s ((max 0 (min start_sample (s.len : Int))).toNat)
    ((max 0 (min end_sample (s.len : Int))).toNat)

/-- `AudioRingBuffer.clear`. -/
def clear (s : AudioRingBuffer) : AudioRingBuffer := { s with wp := 0, len := 0 }

/-- Abstraction relation: the buffer of capacity `cap` retains exactly the
last `min (hist.length) cap` samples of the concatenated input `hist`,
stored circularly ending at the write cursor. -/
def Inv (s : AudioRingBuffer) (hist : List Int) : Prop :=
  0 < s.cap ∧ s.wp < s.cap ∧ s.len = min hist.length s.cap ∧
  (s.wp = s.len ∨ s.len = s.cap) ∧
  ∀ i : Nat, i < s.len →
    s.buf (cyc s.cap ((s.wp : Int) - s.len + i)) = hist.getD (hist.length - s.len + i) 0

theorem Inv_init (cap : Nat) (hc : 0 < cap) : Inv (init cap) [] := by
  refine ⟨hc, hc, by simp [init], Or.inl rfl, ?_⟩
  intro i hi
  simp [init] at hi

theorem getD_drop_zero (l : List Int) (m k : Nat) :
    (l.drop m).getD k 0 = l.getD (m + k) 0 := by
  simp [List.getD_eq_getElem?_getD, List.getElem?_drop]

theorem getD_take_of_lt (l : List Int) {m k : Nat} (h : k < m) :
    (l.take m).getD k 0 = l.getD k 0 := by
  simp [List.getD_eq_getElem?_getD, List.getElem?_take, h]

theorem Inv_append {s : AudioRingBuffer} {hist : List Int} (h : Inv s hist)
    (a : List Int) : Inv (s.append a) (hist ++ a) := by
  obtain ⟨hc, hwp, hlen, hwl, helem⟩ := h
  by_cases ha : a.length = 0
  · rw [List.length_eq_zero] at ha
    subst ha
    simpa [append] using ⟨hc, hwp, hlen, hwl, helem⟩
  · by_cases hb : s.cap ≤ a.length
    · -- overwrite case: n >= capacity
      rw [append, if_neg ha, if_pos hb]
      refine ⟨hc, hc, by dsimp only; rw [List.length_append]; omega, Or.inr rfl, ?_⟩
      intro i hi
      dsimp only at hi ⊢
      rw [List.length_append]
      have harg : ((0 : Nat) : Int) - (s.cap : Int) + (i : Int) < 0 := by omega
      rw [cyc_of_neg (by omega) harg]
      have hq : ((0 : Nat) : Int) - (s.cap : Int) + (i : Int) + (s.cap : Int) = (i : Int) := by
        ring
      rw [hq]
      have hilt : (Int.toNat i) = i := by omega
      rw [hilt]
      have hdl : (a.drop (a.length - s.cap)).length = s.cap := by
        simp; omega
      rw [show (arrWrite s.buf 0 (a.drop (a.length - s.cap)) i)
            = (a.drop (a.length - s.cap)).getD i 0 by
        simp [arrWrite, hdl]; omega]
      rw [getD_drop_zero, List.getD_append_right _ _ _ _ (by omega)]
      congr 1
      omega
    · push_neg at hb
      by_cases hnw : s.wp + a.length ≤ s.cap
      · -- write in one piece
        rw [append, if_neg ha, if_neg (by omega), if_pos hnw]
        have hlen' : min (s.len + a.length) s.cap = min (hist.length + a.length) s.cap := by
          omega
        refine ⟨hc, Nat.mod_lt _ hc, by dsimp only; rw [List.length_append]; omega, ?_, ?_⟩
        · -- write position / length relation
          dsimp only
          rcases hwl with hwl | hwl
          · by_cases he : s.wp + a.length = s.cap
            · right; omega
            · left
              rw [Nat.mod_eq_of_lt (by omega)]
              omega
          · right; omega
        · intro i hi
          dsimp only at hi ⊢
          rw [List.length_append]
          set n := a.length with hn
          set len' := min (s.len + n) s.cap with hlen'def
          -- rewrite the cyclic position: (wp + n) % cap ≡ wp + n
          have hcast : (((s.wp + n) % s.cap : Nat) : Int) = ((s.wp + n : Nat) : Int) % (s.cap : Int) := by
            push_cast
            ring_nf
          have hstep : cyc s.cap ((((s.wp + n) % s.cap : Nat) : Int) - (len' : Int) + (i : Int))
              = cyc s.cap ((s.wp : Int) + (n : Int) - (len' : Int) + (i : Int)) := by
            rw [hcast]
            rw [show ((s.wp + n : Nat) : Int) % (s.cap : Int) - (len' : Int) + (i : Int)
                  = ((s.wp + n : Nat) : Int) % (s.cap : Int) + (-(len' : Int) + (i : Int)) by ring,
                cyc_emod_add]
            congr 1
            push_cast
            ring
          rw [hstep]
          set sh := len' - n with hsh
          have hn_le : n ≤ len' := by omega
          have hsh_le : sh ≤ s.len := by omega
          by_cases hi2 : i < sh
          · -- old retained samples
            have hargeq : (s.wp : Int) + (n : Int) - (len' : Int) + (i : Int)
                = (s.wp : Int) - (s.len : Int) + ((s.len - sh + i : Nat) : Int) := by omega
            rw [hargeq]
            have hj : s.len - sh + i < s.len := by omega
            have hnotw : ¬ (s.wp ≤ cyc s.cap ((s.wp : Int) - (s.len : Int) + ((s.len - sh + i : Nat) : Int))
                ∧ cyc s.cap ((s.wp : Int) - (s.len : Int) + ((s.len - sh + i : Nat) : Int)) < s.wp + n) := by
              set j : Nat := s.len - sh + i with hjdef
              have hjc : ((j : Nat) : Int) = (s.len : Int) - (sh : Int) + (i : Int) := by omega
              by_cases hsgn : (0 : Int) ≤ (s.wp : Int) - (s.len : Int) + (j : Int)
              · rw [cyc_of_nonneg hsgn (by omega)]
                omega
              · rw [cyc_of_neg (by omega) (by omega)]
                omega
            rw [show arrWrite s.buf s.wp a (cyc s.cap ((s.wp : Int) - (s.len : Int) + ((s.len - sh + i : Nat) : Int)))
                  = s.buf (cyc s.cap ((s.wp : Int) - (s.len : Int) + ((s.len - sh + i : Nat) : Int))) by
              simp only [arrWrite, if_neg hnotw]]
            rw [helem _ hj]
            rw [List.getD_append _ _ _ _ (by omega)]
            congr 1
            omega
          · -- freshly written samples
            push_neg at hi2
            have hsgn : (0 : Int) ≤ (s.wp : Int) + (n : Int) - (len' : Int) + (i : Int) := by omega
            rw [cyc_of_nonneg hsgn (by omega)]
            have hq : ((s.wp : Int) + (n : Int) - (len' : Int) + (i : Int)).toNat
                = s.wp + (i - sh) := by omega
            rw [hq]
            rw [show arrWrite s.buf s.wp a (s.wp + (i - sh)) = a.getD (i - sh) 0 by
              simp only [arrWrite]
              rw [if_pos (by omega)]
              congr 1
              omega]
            rw [List.getD_append_right _ _ _ _ (by omega)]
            congr 1
            omega
      · -- write in two pieces across the wrap
        push_neg at hnw
        rw [append, if_neg ha, if_neg (by omega), if_neg (by omega)]
        set n := a.length with hn
        have hlen' : min (s.len + n) s.cap = s.cap := by omega
        have hwp' : (s.wp + n) % s.cap = s.wp + n - s.cap := by
          rw [Nat.mod_eq_sub_mod (by omega), Nat.mod_eq_of_lt (by omega)]
        refine ⟨hc, Nat.mod_lt _ hc, by dsimp only; rw [List.length_append]; omega,
          Or.inr (by dsimp only; exact hlen'), ?_⟩
        intro i hi
        dsimp only at hi ⊢
        rw [List.length_append]
        rw [hlen'] at hi ⊢
        rw [hwp']
        set f := s.cap - s.wp with hf
        have hcast : ((s.wp + n - s.cap : Nat) : Int) = (s.wp : Int) + n - s.cap := by omega
        set sh := s.cap - n with hsh
        have hlen_big : s.cap - n ≤ s.len := by omega
        by_cases hi2 : i < sh
        · -- old retained samples
          have hargeq : ((s.wp + n - s.cap : Nat) : Int) - (s.cap : Int) + (i : Int)
              = ((s.wp : Int) - (s.len : Int) + ((s.len - sh + i : Nat) : Int)) - (s.cap : Int) := by
            omega
          rw [hargeq, cyc_sub_cap]
          have hj : s.len - sh + i < s.len := by omega
          set j : Nat := s.len - sh + i with hjdef
          have hjc : ((j : Nat) : Int) = (s.len : Int) - (sh : Int) + (i : Int) := by omega
          have hqval : cyc s.cap ((s.wp : Int) - (s.len : Int) + (j : Int))
              = s.wp + n - s.cap + i := by
            rw [cyc_of_nonneg (by omega) (by omega)]
            omega
          have hnot1 : ¬ ((0 : Nat) ≤ cyc s.cap ((s.wp : Int) - (s.len : Int) + (j : Int))
              ∧ cyc s.cap ((s.wp : Int) - (s.len : Int) + (j : Int)) < 0 + (a.drop f).length) := by
            rw [hqval]
            simp only [List.length_drop]
            omega
          have hnot2 : ¬ (s.wp ≤ cyc s.cap ((s.wp : Int) - (s.len : Int) + (j : Int))
              ∧ cyc s.cap ((s.wp : Int) - (s.len : Int) + (j : Int)) < s.wp + (a.take f).length) := by
            rw [hqval]
            simp only [List.length_take]
            omega
          rw [show arrWrite (arrWrite s.buf s.wp (a.take f)) 0 (a.drop f)
                  (cyc s.cap ((s.wp : Int) - (s.len : Int) + (j : Int)))
                = s.buf (cyc s.cap ((s.wp : Int) - (s.len : Int) + (j : Int))) by
            simp only [arrWrite, if_neg hnot1, if_neg hnot2]]
          rw [helem _ hj]
          rw [List.getD_append _ _ _ _ (by omega)]
          congr 1
          omega
        · -- freshly written samples (two target regions)
          push_neg at hi2
          have hrhs : (hist ++ a).getD (hist.length + n - s.cap + i) 0 = a.getD (i - sh) 0 := by
            rw [List.getD_append_right _ _ _ _ (by omega)]
            congr 1
            omega
          rw [hrhs]
          by_cases hsgn : ((s.wp + n - s.cap : Nat) : Int) - (s.cap : Int) + (i : Int) < 0
          · -- lands in the first written piece buffer[wp:]
            rw [cyc_of_neg (by omega) hsgn]
            have hq : (((s.wp + n - s.cap : Nat) : Int) - (s.cap : Int) + (i : Int) + (s.cap : Int)).toNat
                = s.wp + n - s.cap + i := by omega
            rw [hq]
            have hnot1 : ¬ ((0 : Nat) ≤ s.wp + n - s.cap + i
                ∧ s.wp + n - s.cap + i < 0 + (a.drop f).length) := by
              simp only [List.length_drop]
              omega
            rw [show arrWrite (arrWrite s.buf s.wp (a.take f)) 0 (a.drop f) (s.wp + n - s.cap + i)
                  = (a.take f).getD (s.wp + n - s.cap + i - s.wp) 0 by
              simp only [arrWrite, if_neg hnot1]
              rw [if_pos (by simp only [List.length_take]; omega)]]
            rw [getD_take_of_lt _ (by omega)]
            congr 1
            omega
          · -- lands in the wrapped second piece buffer[:n - first]
            push_neg at hsgn
            rw [cyc_of_nonneg hsgn (by omega)]
            have hq : (((s.wp + n - s.cap : Nat) : Int) - (s.cap : Int) + (i : Int)).toNat
                = s.wp + n - s.cap + i - s.cap := by omega
            rw [hq]
            rw [show arrWrite (arrWrite s.buf s.wp (a.take f)) 0 (a.drop f)
                    (s.wp + n - s.cap + i - s.cap)
                  = (a.drop f).getD (s.wp + n - s.cap + i - s.cap) 0 by
              simp only [arrWrite]
              rw [if_pos (by simp only [List.length_drop]; omega)]
              simp]
            rw [getD_drop_zero]
            congr 1
            omega

/-- Pointwise description of `get_last_n` on a state satisfying the
abstraction relation: element `i` of the result is the buffer sample at
cyclic position `wp - n + i`. -/
theorem get_last_n_elem {s : AudioRingBuffer} (hc : 0 < s.cap) (hwp : s.wp < s.cap)
    {n0 : Nat} (hcapn : min n0 s.len ≤ s.cap) :
    s.get_last_n n0
      = (List.range (min n0 s.len)).map
          (fun i : Nat => s.buf (cyc s.cap ((s.wp : Int) - (min n0 s.len : Nat) + (i : Int)))) := by
  rw [get_last_n]
  generalize hndef : min n0 s.len = n at hcapn ⊢
  by_cases hn0 : n = 0
  · simp [hn0]
  · rw [if_neg hn0]
    by_cases hcase : n ≤ s.wp
    · rw [cyc_of_nonneg (by omega) (by omega), if_pos (by omega)]
      apply List.ext_getElem
      · simp only [length_arrSlice, List.length_map, List.length_range]
        omega
      · intro i h1 h2
        simp only [length_arrSlice] at h1
        simp only [List.length_map, List.length_range] at h2
        simp only [arrSlice, List.getElem_map, List.getElem_range]
        rw [cyc_of_nonneg (by omega) (by omega)]
        congr 1
        omega
    · push_neg at hcase
      rw [cyc_of_neg (by omega) (by omega), if_neg (by omega)]
      apply List.ext_getElem
      · simp only [List.length_append, length_arrSlice, List.length_map, List.length_range]
        omega
      · intro i h1 h2
        simp only [List.length_append, length_arrSlice] at h1
        simp only [List.length_map, List.length_range] at h2
        by_cases hreg : i < s.cap - ((s.wp : Int) - (n : Int) + (s.cap : Int)).toNat
        · rw [List.getElem_append_left (by simp only [length_arrSlice]; omega)]
          simp only [arrSlice, List.getElem_map, List.getElem_range]
          rw [cyc_of_neg (by omega) (by omega)]
          congr 1
          omega
        · push_neg at hreg
          rw [List.getElem_append_right (by simp only [length_arrSlice]; omega)]
          simp only [arrSlice, List.getElem_map, List.getElem_range, length_arrSlice,
            List.length_map, List.length_range]
          rw [cyc_of_nonneg (by omega) (by omega)]
          congr 1
          omega

theorem get_last_n_of_Inv {s : AudioRingBuffer} {hist : List Int} (h : Inv s hist)
    (n0 : Nat) : s.get_last_n n0 = lastN (min n0 s.len) hist := by
  obtain ⟨hc, hwp, hlen, hwl, helem⟩ := h
  rw [get_last_n_elem hc hwp (by omega)]
  generalize hndef : min n0 s.len = n
  have hnlen : n ≤ s.len := by omega
  have hnhist : n ≤ hist.length := by omega
  apply List.ext_getElem
  · simp [lastN]
    omega
  · intro i h1 h2
    simp only [List.getElem_map, List.getElem_range, List.length_map, List.length_range] at h1 ⊢
    simp only [lastN, List.getElem_drop]
    have hhe := helem (s.len - n + i) (by omega)
    rw [List.getD_eq_getElem _ _ (by omega)] at hhe
    have harg : (s.wp : Int) - (s.len : Int) + ((s.len - n + i : Nat) : Int)
        = (s.wp : Int) - (n : Int) + (i : Int) := by omega
    rw [harg] at hhe
    rw [hhe]
    congr 1
    omega

theorem Inv_foldl {s : AudioRingBuffer} {hist : List Int} (h : Inv s hist)
    (appends : List (List Int)) :
    Inv (appends.foldl AudioRingBuffer.append s) (hist ++ appends.flatten) := by
  induction appends generalizing s hist with
  | nil => simpa using h
  | cons a rest ih =>
    simp only [List.foldl_cons, List.flatten_cons]
    have h2 := ih (Inv_append h a)
    rwa [List.append_assoc] at h2

theorem cap_append (s : AudioRingBuffer) (a : List Int) : (s.append a).cap = s.cap := by
  rw [append]
  split
  · rfl
  · split
    · rfl
    · split <;> rfl

theorem cap_foldl (s : AudioRingBuffer) (appends : List (List Int)) :
    (appends.foldl AudioRingBuffer.append s).cap = s.cap := by
  induction appends generalizing s with
  | nil => rfl
  | cons a rest ih => rw [List.foldl_cons, ih, cap_append]

end AudioRingBuffer

/-- C1: for every append sequence on a positive-capacity ring buffer and
every `n`, `get_last_n n` returns exactly the last `min n count` samples of
the concatenation of all appended arrays, with
`count = min (total appended) capacity`. -/
theorem claim_C1_ringbuffer_tail (cap : Nat) (hc : 0 < cap)
    (appends : List (List Int)) (n : Nat) :
    (appends.foldl AudioRingBuffer.append (AudioRingBuffer.init cap)).get_last_n n
      = lastN (min n (min appends.flatten.length cap)) appends.flatten := by
  have hInv := AudioRingBuffer.Inv_foldl (AudioRingBuffer.Inv_init cap hc) appends
  rw [List.nil_append] at hInv
  rw [AudioRingBuffer.get_last_n_of_Inv hInv]
  have hl := hInv.2.2.1
  rw [hl, AudioRingBuffer.cap_foldl]
  rfl

/-- Witness for C1 at capacity 4, inputs `[1,2,3]`, `[4,5]`, `n = 3`:
the retained content is `[2,3,4,5]` and the tail of 3 is `[3,4,5]`. -/
theorem claim_C1_ringbuffer_tail_witness :
    0 < 4 ∧
      (([[1, 2, 3], [4, 5]] : List (List Int)).foldl AudioRingBuffer.append
          (AudioRingBuffer.init 4)).get_last_n 3
        = lastN (min 3 (min ([[1, 2, 3], [4, 5]] : List (List Int)).flatten.length 4))
            ([[1, 2, 3], [4, 5]] : List (List Int)).flatten :=
  ⟨by decide, claim_C1_ringbuffer_tail 4 (by decide) [[1, 2, 3], [4, 5]] 3⟩

example :
    (([[1, 2, 3], [4, 5]] : List (List Int)).foldl AudioRingBuffer.append
        (AudioRingBuffer.init 4)).get_last_n 3 = [3, 4, 5] := by
  decide

/-! ## Python string model

Python `str` is modelled as `List Char`; `str.strip`, `str.split`,
`str.lower` and `" ".join` as the functions below. -/

/-- Python whitespace (the characters `str.split`/`str.strip`/`\s` treat as
separators, restricted to ASCII). -/
def isWs (c : Char) : Bool :=
  c = ' ' || c = '\t' || c = '\n' || c = '\r' || c = '\x0b' || c = '\x0c'

/-- Python `s.strip()`: remove leading and trailing whitespace. -/
def pyStrip (s : List Char) : List Char :=
  ((s.dropWhile isWs).reverse.dropWhile isWs).reverse

/-- Worker for `splitWs`: `cur` is the current word, reversed. -/
def splitWsAux (cur : List Char) : List Char → List (List Char)
  | [] => if cur.isEmpty then [] else [cur.reverse]
  | c :: rest =>
    if isWs c then
      if cur.isEmpty then splitWsAux [] rest
      else cur.reverse :: splitWsAux [] rest
    else splitWsAux (c :: cur) rest

/-- Python `s.split()` with no argument: split on whitespace runs, dropping
empty strings. -/
def splitWs (s : List Char) : List (List Char) := splitWsAux [] s

/-- Python `" ".join(ws)`. -/
def joinSpace (ws : List (List Char)) : List Char := (List.intersperse [' '] ws).flatten

/-- Python `w.lower()` (modelled characterwise). -/
def pyLower (w : List Char) : List Char := w.map Char.toLower

theorem splitWsAux_all_nonws {w : List Char} (hw : ∀ c ∈ w, ¬ isWs c) (cur : List Char) :
    splitWsAux cur w = if (cur.reverse ++ w).isEmpty then [] else [cur.reverse ++ w] := by
  induction w generalizing cur with
  | nil => simp [splitWsAux]
  | cons c w ih =>
    rw [splitWsAux, if_neg (by simpa using hw c (by simp))]
    rw [ih (fun d hd => hw d (by simp [hd]))]
    simp

theorem splitWsAux_append_ws {c : Char} (hc : isWs c) (l1 l2 cur : List Char) :
    splitWsAux cur (l1 ++ c :: l2) = splitWsAux cur l1 ++ splitWsAux [] l2 := by
  induction l1 generalizing cur with
  | nil =>
    by_cases hcur : cur.isEmpty
    · simp [splitWsAux, hc, hcur]
    · simp [splitWsAux, hc, hcur]
  | cons d l1 ih =>
    by_cases hd : isWs d
    · by_cases hcur : cur.isEmpty
      · simp [List.cons_append, splitWsAux, hd, hcur, ih []]
      · simp [List.cons_append, splitWsAux, hd, hcur, ih []]
    · simp only [List.cons_append, splitWsAux, hd, Bool.false_eq_true, if_false]
      exact ih (d :: cur)

theorem joinSpace_cons₂ (w b : List Char) (t : List (List Char)) :
    joinSpace (w :: b :: t) = w ++ ' ' :: joinSpace (b :: t) := by
  rw [joinSpace, joinSpace, List.intersperse_cons_cons]
  simp

theorem splitWs_joinSpace {ws : List (List Char)}
    (h : ∀ w ∈ ws, ¬ w.isEmpty ∧ ∀ c ∈ w, ¬ isWs c) :
    splitWs (joinSpace ws) = ws := by
  induction ws with
  | nil => rfl
  | cons w t ih =>
    match t with
    | [] =>
      obtain ⟨hne, hnw⟩ := h w (by simp)
      rw [show joinSpace [w] = w by simp [joinSpace]]
      rw [splitWs, splitWsAux_all_nonws hnw]
      simp only [List.isEmpty_iff] at hne
      simp [hne]
    | b :: t =>
      obtain ⟨hne, hnw⟩ := h w (by simp)
      rw [joinSpace_cons₂, splitWs, splitWsAux_append_ws (by decide) w (joinSpace (b :: t)) []]
      rw [show splitWsAux [] (joinSpace (b :: t)) = splitWs (joinSpace (b :: t)) from rfl]
      rw [ih (fun v hv => h v (by simp [hv]))]
      rw [show splitWsAux [] w = splitWs w from rfl, splitWs, splitWsAux_all_nonws hnw]
      simp only [List.isEmpty_iff] at hne
      simp [hne]

theorem splitWsAux_sound {l cur : List Char} (hcur : ∀ c ∈ cur, ¬ isWs c) :
    ∀ w ∈ splitWsAux cur l, ¬ w.isEmpty ∧ ∀ c ∈ w, ¬ isWs c := by
  induction l generalizing cur with
  | nil =>
    intro w hw
    rw [splitWsAux] at hw
    by_cases hc : cur.isEmpty
    · simp [hc] at hw
    · rw [if_neg hc] at hw
      simp only [List.mem_singleton] at hw
      subst hw
      refine ⟨by simpa using hc, ?_⟩
      intro c hcmem
      exact hcur c (by simpa using hcmem)
  | cons d l ih =>
    intro w hw
    rw [splitWsAux] at hw
    by_cases hd : isWs d
    · rw [if_pos hd] at hw
      by_cases hc : cur.isEmpty
      · rw [if_pos hc] at hw
        exact ih (by simp) w hw
      · rw [if_neg hc] at hw
        rcases List.mem_cons.mp hw with hw | hw
        · subst hw
          refine ⟨by simpa using hc, ?_⟩
          intro c hcmem
          exact hcur c (by simpa using hcmem)
        · exact ih (by simp) w hw
    · rw [if_neg hd] at hw
      refine ih ?_ w hw
      intro c hcmem
      rcases List.mem_cons.mp hcmem with h | h
      · subst h; exact hd
      · exact hcur c h

theorem splitWsAux_dropWhile (l : List Char) :
    splitWsAux [] (l.dropWhile isWs) = splitWsAux [] l := by
  induction l with
  | nil => rfl
  | cons c l ih =>
    by_cases hc : isWs c
    · rw [List.dropWhile_cons_of_pos (by simpa using hc), ih, splitWsAux, if_pos hc]
      simp
    · rw [List.dropWhile_cons_of_neg (by simpa using hc)]

theorem splitWsAux_all_ws {t : List Char} (ht : ∀ c ∈ t, isWs c) (cur : List Char) :
    splitWsAux cur t = if cur.isEmpty then [] else [cur.reverse] := by
  induction t generalizing cur with
  | nil => rfl
  | cons c t ih =>
    rw [splitWsAux, if_pos (ht c (by simp))]
    by_cases hc : cur.isEmpty
    · rw [if_pos hc, if_pos hc, ih (fun d hd => ht d (by simp [hd])) []]
      rfl
    · rw [if_neg hc, if_neg hc, ih (fun d hd => ht d (by simp [hd])) []]
      rfl

theorem splitWsAux_append_all_ws {t : List Char} (ht : ∀ c ∈ t, isWs c)
    (l cur : List Char) : splitWsAux cur (l ++ t) = splitWsAux cur l := by
  induction l generalizing cur with
  | nil =>
    simp only [List.nil_append]
    rw [splitWsAux_all_ws ht, splitWsAux]
  | cons d l ih =>
    simp only [List.cons_append]
    rw [splitWsAux, splitWsAux]
    by_cases hd : isWs d
    · rw [if_pos hd, if_pos hd]
      by_cases hc : cur.isEmpty
      · simp only [if_pos hc]
        exact ih []
      · simp only [if_neg hc, ih []]
    · rw [if_neg hd, if_neg hd]
      exact ih (d :: cur)

theorem splitWs_pyStrip (l : List Char) : splitWs (pyStrip l) = splitWs l := by
  rw [pyStrip, splitWs, splitWs]
  rw [← splitWsAux_dropWhile l]
  generalize (l.dropWhile isWs) = m
  have hm : m = (m.reverse.dropWhile isWs).reverse ++ (m.reverse.takeWhile isWs).reverse := by
    conv_lhs => rw [show m = m.reverse.reverse by simp]
    rw [← List.reverse_append, List.takeWhile_append_dropWhile]
  conv_rhs => rw [hm]
  rw [splitWsAux_append_all_ws]
  intro c hc
  have := List.mem_takeWhile_imp (by simpa using hc)
  simpa using this

/-! ## `deduplicate_words` (`sidecar/domain/transcript_processor.py`, lines 6-17)

`dedup_new_words` in `sidecar/grpc_server.py` (lines 131-142) is the same
code line for line; this embedding covers both. -/

/-- The `for i in range(max_overlap, 0, -1)` search: the largest `i` (tried
downward, first hit wins) with the last `i` confirmed words equal, lowered,
to the first `i` new words; 0 if none. -/
def findOverlapFrom (words confirmed : List (List Char)) : Nat → Nat
  | 0 => 0
  | i + 1 =>
    if (lastN (i + 1) confirmed).map pyLower = (words.take (i + 1)).map pyLower
    then i + 1
    else findOverlapFrom words confirmed i

/-- Body of `deduplicate_words` after `words` has been computed:
`new_words = words[overlap:]`; `confirmed` is extended only when
`new_words` is non-empty; the tail is `" ".join(new_words)`. -/
def ddwFinish (words confirmed : List (List Char)) : List Char × List (List Char) :=
  (joinSpace (words.drop (findOverlapFrom words confirmed (min words.length confirmed.length))),
   if (words.drop (findOverlapFrom words confirmed (min words.length confirmed.length))).isEmpty
   then confirmed
   else confirmed ++ words.drop (findOverlapFrom words confirmed (min words.length confirmed.length)))

/-- `deduplicate_words(text, confirmed_words)`: `words = [w for w in
text.strip().split() if w]`, then the overlap search and extension. -/
def deduplicate_words (text : List Char) (confirmed : List (List Char)) :
    List Char × List (List Char) :=
  ddwFinish ((splitWs (pyStrip text)).filter (fun w => !w.isEmpty)) confirmed

theorem findOverlapFrom_full (ws conf : List (List Char)) (h : ws ≠ []) :
    findOverlapFrom ws (conf ++ ws) ws.length = ws.length := by
  obtain ⟨a, t, rfl⟩ : ∃ a t, ws = a :: t := by
    cases ws with
    | nil => exact absurd rfl h
    | cons a t => exact ⟨a, t, rfl⟩
  show findOverlapFrom (a :: t) (conf ++ a :: t) (t.length + 1) = t.length + 1
  rw [findOverlapFrom, if_pos]
  have h1 : lastN (t.length + 1) (conf ++ a :: t) = a :: t := by
    rw [lastN, List.length_append, List.length_cons, Nat.add_sub_cancel,
      List.drop_left]
  have h2 : (a :: t).take (t.length + 1) = a :: t :=
    List.take_of_length_le (by simp)
  rw [h1, h2]

theorem ddwFinish_append_tail (ws conf : List (List Char)) (h : ws ≠ []) :
    (ddwFinish ws (conf ++ ws)).1 = [] := by
  rw [ddwFinish]
  have hmin : min ws.length (conf ++ ws).length = ws.length := by
    simp only [List.length_append]
    omega
  rw [hmin, findOverlapFrom_full ws conf h, List.drop_length]
  rfl

/-- Words produced by `splitWs`-then-filter are non-empty and contain no
whitespace character. -/
theorem words_sound {text : List Char} :
    ∀ w ∈ (splitWs (pyStrip text)).filter (fun w => !w.isEmpty),
      ¬ w.isEmpty ∧ ∀ c ∈ w, ¬ isWs c := by
  intro w hw
  have hmem : w ∈ splitWs (pyStrip text) := List.mem_of_mem_filter hw
  exact splitWsAux_sound (by simp) w hmem

/-- C8: `deduplicate_words` is idempotent — feeding the returned tail back
with the updated confirmed list yields an empty tail. -/
theorem claim_C8_dedup_idempotent (text : List Char) (confirmed : List (List Char)) :
    (deduplicate_words (deduplicate_words text confirmed).1
        (deduplicate_words text confirmed).2).1 = [] := by
  have hinner : deduplicate_words text confirmed
      = (joinSpace (((splitWs (pyStrip text)).filter (fun w => !w.isEmpty)).drop
            (findOverlapFrom ((splitWs (pyStrip text)).filter (fun w => !w.isEmpty)) confirmed
              (min ((splitWs (pyStrip text)).filter (fun w => !w.isEmpty)).length confirmed.length))),
         if (((splitWs (pyStrip text)).filter (fun w => !w.isEmpty)).drop
            (findOverlapFrom ((splitWs (pyStrip text)).filter (fun w => !w.isEmpty)) confirmed
              (min ((splitWs (pyStrip text)).filter (fun w => !w.isEmpty)).length confirmed.length))).isEmpty
         then confirmed
         else confirmed ++ ((splitWs (pyStrip text)).filter (fun w => !w.isEmpty)).drop
            (findOverlapFrom ((splitWs (pyStrip text)).filter (fun w => !w.isEmpty)) confirmed
              (min ((splitWs (pyStrip text)).filter (fun w => !w.isEmpty)).length confirmed.length))) :=
    rfl
  have hnew : ∀ w ∈ ((splitWs (pyStrip text)).filter (fun w => !w.isEmpty)).drop
      (findOverlapFrom ((splitWs (pyStrip text)).filter (fun w => !w.isEmpty)) confirmed
        (min ((splitWs (pyStrip text)).filter (fun w => !w.isEmpty)).length confirmed.length)),
      ¬ w.isEmpty ∧ ∀ c ∈ w, ¬ isWs c := by
    intro w hw
    exact words_sound w (List.mem_of_mem_drop hw)
  rw [hinner]
  generalize hN : ((splitWs (pyStrip text)).filter (fun w => !w.isEmpty)).drop
      (findOverlapFrom ((splitWs (pyStrip text)).filter (fun w => !w.isEmpty)) confirmed
        (min ((splitWs (pyStrip text)).filter (fun w => !w.isEmpty)).length confirmed.length))
      = new at hnew ⊢
  simp only
  have hwords2 : (splitWs (pyStrip (joinSpace new))).filter (fun w => !w.isEmpty) = new := by
    rw [splitWs_pyStrip, splitWs_joinSpace hnew]
    exact List.filter_eq_self.mpr (fun w hw => by
      simpa using (hnew w hw).1)
  by_cases hnil : new.isEmpty
  · rw [if_pos hnil]
    rw [List.isEmpty_iff] at hnil
    subst hnil
    rw [show joinSpace ([] : List (List Char)) = [] from rfl]
    rw [deduplicate_words, show splitWs (pyStrip []) = [] from rfl]
    rw [show (([] : List (List Char)).filter (fun w => !w.isEmpty)) = [] from rfl]
    rw [ddwFinish]
    simp only [List.length_nil, Nat.zero_min, List.drop_nil]
    rfl
  · rw [if_neg hnil]
    rw [deduplicate_words, hwords2]
    exact ddwFinish_append_tail new confirmed (by simpa [List.isEmpty_iff] using hnil)

/-! ## `SpeechState` (`sidecar/grpc_server.py`, lines 34-76)

Per-session mutable state of the gRPC STT servicer.  The lock only guards
mutation; the sequential model below applies the operations in order. -/

structure SpeechState where
  active : Bool
  buffer : List (List Int)
  confirmed_words : List (List Char)
  last_partial_ms : Int
  max_chunks : Nat

/-- Dataclass defaults: inactive, empty buffer, `max_chunks = 256`. -/
def SpeechState.initial : SpeechState := ⟨false, [], [], 0, 256⟩

def SpeechState.start_speech (st : SpeechState) : SpeechState :=
  { st with active := true, buffer := [], confirmed_words := [], last_partial_ms := 0 }

def SpeechState.stop_speech (st : SpeechState) : SpeechState := { st with active := false }

/-- `append_audio`: appends only while active, then trims to the last
`max_chunks` chunks (`self.buffer = self.buffer[-self.max_chunks:]`). -/
def SpeechState.append_audio (st : SpeechState) (audio : List Int) : SpeechState :=
  if st.active then
    if st.max_chunks < (st.buffer ++ [audio]).length then
      { st with buffer := lastN st.max_chunks (st.buffer ++ [audio]) }
    else { st with buffer := st.buffer ++ [audio] }
  else st

/-- The audio `_flush_remaining_audio` (grpc_server.py lines 341-353)
transcribes: `np.concatenate(buffer_copy)` when the buffer is non-empty,
nothing otherwise. -/
def flushAudio (st : SpeechState) : Option (List Int) :=
  if st.buffer.isEmpty then none else some st.buffer.flatten

inductive SessionOp where
  | start : SessionOp
  | stop : SessionOp
  | append : List Int → SessionOp

def SpeechState.applyOp (st : SpeechState) : SessionOp → SpeechState
  | .start => st.start_speech
  | .stop => st.stop_speech
  | .append a => st.append_audio a

def SpeechState.applyOps (st : SpeechState) (ops : List SessionOp) : SpeechState :=
  ops.foldl SpeechState.applyOp st

/-- Specification-level recount of the session ops: the audio arrays
appended while the session was active, since the last `start_speech`
(uncapped), together with the final activity flag. -/
def retainedAppends : Bool → List (List Int) → List SessionOp → Bool × List (List Int)
  | a, acc, [] => (a, acc)
  | _, _, .start :: r => retainedAppends true [] r
  | a, acc, .stop :: r => retainedAppends false acc r
  | a, acc, .append x :: r => retainedAppends a (if a then acc ++ [x] else acc) r

theorem lastN_of_length_le {k : Nat} {l : List α} (h : l.length ≤ k) : lastN k l = l := by
  rw [lastN, show l.length - k = 0 by omega, List.drop_zero]

theorem lastN_lastN_append (k : Nat) (l : List α) (x : α) :
    lastN k (lastN k l ++ [x]) = lastN k (l ++ [x]) := by
  by_cases h : l.length ≤ k
  · rw [lastN_of_length_le h]
  · push_neg at h
    by_cases hk : k = 0
    · subst hk
      simp [lastN]
    · have h1 : (lastN k l).length = k := by
        simp only [length_lastN]
        omega
      have e1 : (lastN k l ++ [x]).length - k = 1 := by
        simp only [List.length_append, h1, List.length_cons, List.length_nil]
        omega
      rw [show lastN k (lastN k l ++ [x]) = List.drop 1 (lastN k l ++ [x]) by rw [lastN, e1]]
      rw [List.drop_append_of_le_length (by omega)]
      rw [lastN, List.drop_drop]
      rw [lastN, List.length_append, List.length_cons, List.length_nil]
      rw [List.drop_append_of_le_length (by omega)]
      congr 2
      omega

theorem applyOps_retained (ops : List SessionOp) :
    ∀ (st : SpeechState) (acc : List (List Int)),
      st.buffer = lastN 256 acc → st.max_chunks = 256 →
      (st.applyOps ops).buffer = lastN 256 (retainedAppends st.active acc ops).2
        ∧ (st.applyOps ops).active = (retainedAppends st.active acc ops).1
        ∧ (st.applyOps ops).max_chunks = 256 := by
  induction ops with
  | nil =>
    intro st acc hbuf hmax
    exact ⟨hbuf, rfl, hmax⟩
  | cons op r ih =>
    intro st acc hbuf hmax
    match op with
    | .start =>
      have h := ih st.start_speech [] (by simp [SpeechState.start_speech, lastN]) hmax
      simpa [SpeechState.applyOps, SpeechState.applyOp, retainedAppends,
        SpeechState.start_speech] using h
    | .stop =>
      have h := ih st.stop_speech acc hbuf hmax
      simpa [SpeechState.applyOps, SpeechState.applyOp, retainedAppends,
        SpeechState.stop_speech] using h
    | .append x =>
      by_cases hact : st.active
      · have hbuf' : (st.append_audio x).buffer = lastN 256 (acc ++ [x]) := by
          rw [SpeechState.append_audio, if_pos hact]
          by_cases hlong : st.max_chunks < (st.buffer ++ [x]).length
          · rw [if_pos hlong]
            simp only
            rw [hmax, hbuf, lastN_lastN_append]
          · rw [if_neg hlong]
            simp only
            push_neg at hlong
            rw [hmax, hbuf] at hlong
            simp only [List.length_append, length_lastN, List.length_cons,
              List.length_nil] at hlong
            have hacc : acc.length ≤ 255 := by omega
            rw [hbuf, lastN_of_length_le (by omega),
              lastN_of_length_le (by simp only [List.length_append]; simp; omega)]
        have hmax' : (st.append_audio x).max_chunks = 256 := by
          rw [SpeechState.append_audio, if_pos hact]
          by_cases h2 : st.max_chunks < (st.buffer ++ [x]).length
          · rw [if_pos h2]
            exact hmax
          · rw [if_neg h2]
            exact hmax
        have hact' : (st.append_audio x).active = st.active := by
          rw [SpeechState.append_audio, if_pos hact]
          by_cases h2 : st.max_chunks < (st.buffer ++ [x]).length
          · rw [if_pos h2]
          · rw [if_neg h2]
        have h := ih (st.append_audio x) (acc ++ [x]) hbuf' hmax'
        rw [hact'] at h
        simpa [SpeechState.applyOps, SpeechState.applyOp, retainedAppends, hact] using h
      · have hst : st.append_audio x = st := by
          rw [SpeechState.append_audio, if_neg hact]
        have h := ih st acc hbuf hmax
        simp only [Bool.not_eq_true] at hact
        simpa [SpeechState.applyOps, SpeechState.applyOp, retainedAppends, hact, hst] using h

/-- C10: the session buffer appends only while active and retains at most
the 256 most recently appended arrays; the end-of-stream flush (and partial
generation, which reads the same concatenated copy) therefore sees only
that retained tail. -/
theorem claim_C10_session_buffer_tail (ops : List SessionOp) :
    (SpeechState.initial.applyOps ops).buffer
        = lastN 256 (retainedAppends false [] ops).2
      ∧ (SpeechState.initial.applyOps ops).active = (retainedAppends false [] ops).1
      ∧ flushAudio (SpeechState.initial.applyOps ops)
        = (if (lastN 256 (retainedAppends false [] ops).2).isEmpty then none
           else some (lastN 256 (retainedAppends false [] ops).2).flatten) := by
  have h := applyOps_retained ops SpeechState.initial [] (by rfl) rfl
  refine ⟨h.1, h.2.1, ?_⟩
  rw [flushAudio, h.1]
  rfl

/-! ## `Transcript` (`sidecar/domain/types.py`) and `merge_transcripts`
(`sidecar/domain/transcript_processor.py`, lines 20-65; the copy in
`sidecar/grpc_server.py`, lines 145-188, is identical).

Word/segment dict keys `start`/`end` are renamed (`end` is a Lean keyword);
the Python float times are modelled as rationals.  The `type` and `usage`
fields carry no behaviour used by the claims and are omitted. -/

structure TWord where
  word : List Char
  wStart : ℚ
  wEnd : ℚ
  deriving DecidableEq

structure Seg where
  segStart : ℚ
  segEnd : ℚ
  segText : List Char
  segWords : List TWord
  deriving DecidableEq

structure Transcript where
  text : List Char := []
  /-- `is_partial` in the source. -/
  partialFlag : Bool := false
  start_ms : Int := 0
  end_ms : Int := 0
  audio_duration_ms : Int := 0
  processing_duration_ms : Int := 0
  segments : Option (List Seg) := none
  model : Option (List Char) := none
  eou_probability : Option ℚ := none
  deriving DecidableEq

/-- Python `int(q)`: truncation toward zero. -/
def pyint (q : ℚ) : Int := if q < 0 then -((-q).floor) else q.floor

/-- Shift one segment dict (and its word dicts) by `offset_s` seconds. -/
def shiftSeg (off : ℚ) (s : Seg) : Seg :=
  { segStart := s.segStart + off, segEnd := s.segEnd + off, segText := s.segText,
    segWords := s.segWords.map (fun w => ⟨w.word, w.wStart + off, w.wEnd + off⟩) }

/-- The accumulation loop of `merge_transcripts`: text parts (stripped,
non-empty only), shifted segments, and the two duration sums, in input
order.  `if transcript.segments:` is Python truthiness: `None` and `[]`
both skip. -/
def mergeLoop : List (Transcript × ℚ) → List (List Char) × List Seg × Int × Int
  | [] => ([], [], 0, 0)
  | (t, off) :: rest =>
    ((if (pyStrip t.text).isEmpty then (mergeLoop rest).1
      else pyStrip t.text :: (mergeLoop rest).1),
     (match t.segments with
      | none => (mergeLoop rest).2.1
      | some ss => if ss.isEmpty then (mergeLoop rest).2.1
                   else ss.map (shiftSeg off) ++ (mergeLoop rest).2.1),
     t.audio_duration_ms + (mergeLoop rest).2.2.1,
     t.processing_duration_ms + (mergeLoop rest).2.2.2)

/-- `merge_transcripts(transcripts)`: `None` models the `ValueError` on an
empty list; a single entry is returned unchanged. -/
def merge_transcripts : List (Transcript × ℚ) → Option Transcript
  | [] => none
  | [(t, _)] => some t
  | p0 :: p1 :: rest =>
    some { text := joinSpace (mergeLoop (p0 :: p1 :: rest)).1,
           partialFlag := false,
           start_ms := p0.1.start_ms,
           end_ms := pyint (((p1 :: rest).getLast?.getD p1).2 * 1000)
                     + ((p1 :: rest).getLast?.getD p1).1.end_ms,
           audio_duration_ms := (mergeLoop (p0 :: p1 :: rest)).2.2.1,
           processing_duration_ms := (mergeLoop (p0 :: p1 :: rest)).2.2.2,
           segments := if (mergeLoop (p0 :: p1 :: rest)).2.1.isEmpty then none
                       else some (mergeLoop (p0 :: p1 :: rest)).2.1,
           model := p0.1.model,
           eou_probability := none }

theorem mergeLoop_text (l : List (Transcript × ℚ)) :
    (mergeLoop l).1 = (l.map (fun p => pyStrip p.1.text)).filter (fun s => !s.isEmpty) := by
  induction l with
  | nil => rfl
  | cons p rest ih =>
    obtain ⟨t, off⟩ := p
    rw [mergeLoop]
    simp only [List.map_cons, List.filter_cons]
    by_cases h : (pyStrip t.text).isEmpty
    · simp [h, ih]
    · simp [h, ih]

theorem mergeLoop_segments (l : List (Transcript × ℚ)) :
    (mergeLoop l).2.1 = l.flatMap (fun p => (p.1.segments.getD []).map (shiftSeg p.2)) := by
  induction l with
  | nil => rfl
  | cons p rest ih =>
    obtain ⟨t, off⟩ := p
    rw [mergeLoop]
    simp only [List.flatMap_cons]
    match hseg : t.segments with
    | none => simp [ih]
    | some ss =>
      by_cases h : ss.isEmpty
      · rw [List.isEmpty_iff] at h
        simp [h, ih]
      · simp [h, ih]

theorem mergeLoop_audio (l : List (Transcript × ℚ)) :
    (mergeLoop l).2.2.1 = (l.map (fun p => p.1.audio_duration_ms)).sum := by
  induction l with
  | nil => rfl
  | cons p rest ih =>
    obtain ⟨t, off⟩ := p
    rw [mergeLoop]
    simp [ih]

theorem mergeLoop_processing (l : List (Transcript × ℚ)) :
    (mergeLoop l).2.2.2 = (l.map (fun p => p.1.processing_duration_ms)).sum := by
  induction l with
  | nil => rfl
  | cons p rest ih =>
    obtain ⟨t, off⟩ := p
    rw [mergeLoop]
    simp [ih]

/-- C6: for two or more (transcript, offset) pairs, `merge_transcripts`
returns the merged transcript: stripped non-empty texts joined by single
spaces, summed durations, start from the first chunk, end from the last
chunk shifted by its offset in ms, segment/word times shifted by their
chunk's offset, model from the first chunk, and no EOU probability. -/
theorem claim_C6_merge_transcripts (p0 p1 : Transcript × ℚ) (rest : List (Transcript × ℚ)) :
    merge_transcripts (p0 :: p1 :: rest)
      = some { text := joinSpace (((p0 :: p1 :: rest).map (fun p => pyStrip p.1.text)).filter
                 (fun s => !s.isEmpty)),
               partialFlag := false,
               start_ms := p0.1.start_ms,
               end_ms := pyint (((p1 :: rest).getLast?.getD p1).2 * 1000)
                         + ((p1 :: rest).getLast?.getD p1).1.end_ms,
               audio_duration_ms :=
                 ((p0 :: p1 :: rest).map (fun p => p.1.audio_duration_ms)).sum,
               processing_duration_ms :=
                 ((p0 :: p1 :: rest).map (fun p => p.1.processing_duration_ms)).sum,
               segments :=
                 if ((p0 :: p1 :: rest).flatMap
                     (fun p => (p.1.segments.getD []).map (shiftSeg p.2))).isEmpty then none
                 else some ((p0 :: p1 :: rest).flatMap
                     (fun p => (p.1.segments.getD []).map (shiftSeg p.2))),
               model := p0.1.model,
               eou_probability := none } := by
  obtain ⟨t0, o0⟩ := p0
  obtain ⟨t1, o1⟩ := p1
  rw [merge_transcripts]
  rw [mergeLoop_text, mergeLoop_segments, mergeLoop_audio, mergeLoop_processing]

/-! ## `STTEngineManager` (`sidecar/stt/engine_manager.py`)

The manager's observable state: the engine-map keys (the `ManagedEngine`
values are heavyweight model wrappers whose load/unload side effects are
external), the configured model id and fallback list, the device strings,
the failed-model set (as a duplicate-free list), and the CPU-fallback flag. -/

structure STTEngineManager where
  config_model_id : String
  config_fallback_models : List String
  original_device : String
  current_device : String
  engines : List String
  failed_models : List String
  tried_cpu_fallback : Bool
  deriving DecidableEq

/-- `get_engine()` with the default model id: creates the map entry if
absent (`OrderedDict` insertion at the end); the returned wrapper itself is
external. -/
def get_engine_state (s : STTEngineManager) : STTEngineManager :=
  if s.config_model_id ∈ s.engines then s
  else { s with engines := s.engines ++ [s.config_model_id] }

/-- `_attempt_cpu_fallback` (engine_manager.py lines 174-189): only fires
when the current device is exactly `"cuda"` and the CPU fallback has not
been attempted; unloads and clears every engine entry and the failed set. -/
def attempt_cpu_fallback (s : STTEngineManager) : Bool × STTEngineManager :=
  if s.current_device = "cuda" ∧ s.tried_cpu_fallback = false then
    (true, { s with current_device := "cpu", tried_cpu_fallback := true,
                    failed_models := [], engines := [] })
  else (false, s)

/-- First half of `try_fallback` (lines 194-201): only when the configured
model has an engine entry, add it to the failed set and remove (unload) the
entry. -/
def tfMark (s : STTEngineManager) : STTEngineManager :=
  if s.config_model_id ∈ s.engines then
    { s with failed_models := s.failed_models.insert s.config_model_id,
             engines := s.engines.erase s.config_model_id }
  else s

/-- `try_fallback` (engine_manager.py lines 191-212). -/
def try_fallback (s : STTEngineManager) : Bool × STTEngineManager :=
  if (s.config_fallback_models.filter
      (fun m => !decide (m ∈ (tfMark s).failed_models))) = [] then
    attempt_cpu_fallback (tfMark s)
  else (true, tfMark s)

/-- C4 as stated by the spec: every call marks the configured model failed
and removes its entry; returns true when a configured fallback remains
outside the failed set; otherwise the CPU transition fires whenever the
current device is *not CPU* and untried (returning true), else false. -/
def claimC4Statement (s : STTEngineManager) : Prop :=
  ((s.config_fallback_models.filter
      (fun m => !decide (m ∈ s.failed_models.insert s.config_model_id))) ≠ [] →
    (try_fallback s).1 = true
      ∧ (try_fallback s).2.failed_models = s.failed_models.insert s.config_model_id
      ∧ s.config_model_id ∉ (try_fallback s).2.engines)
  ∧ ((s.config_fallback_models.filter
      (fun m => !decide (m ∈ s.failed_models.insert s.config_model_id))) = [] →
    (s.current_device ≠ "cpu" ∧ s.tried_cpu_fallback = false →
        (try_fallback s).1 = true
          ∧ (try_fallback s).2.current_device = "cpu"
          ∧ (try_fallback s).2.engines = []
          ∧ (try_fallback s).2.failed_models = []
          ∧ (try_fallback s).2.tried_cpu_fallback = true)
      ∧ (¬(s.current_device ≠ "cpu" ∧ s.tried_cpu_fallback = false) →
        (try_fallback s).1 = false
          ∧ (try_fallback s).2.failed_models = s.failed_models.insert s.config_model_id
          ∧ s.config_model_id ∉ (try_fallback s).2.engines))

/-- C4 counterexample: on a manager whose device is `"mps"` (not CPU, not
CUDA), with no engine entry, no fallbacks and CPU fallback untried, the
claim predicts a CPU transition returning true and the model marked failed;
the code checks `== "cuda"`, skips the mark (no entry) and returns false. -/
theorem claim_C4_counterexample :
    ¬ claimC4Statement ⟨"m", [], "mps", "mps", [], [], false⟩ := by
  intro h
  have h2 := (h.2 rfl).1 ⟨by decide, rfl⟩
  have hb : (try_fallback ⟨"m", [], "mps", "mps", [], [], false⟩).1 = false := by decide
  rw [h2.1] at hb
  simp at hb

/-- C4 amended: the mark/removal happens only when the configured model has
an engine entry; a remaining fallback id outside the post-mark failed set
returns true with the marked state; otherwise the CPU transition fires iff
the device is exactly `"cuda"` and untried, else false with the marked
state. -/
def claimC4AmendedStatement (s : STTEngineManager) : Prop :=
  (s.config_model_id ∈ s.engines →
      (tfMark s).failed_models = s.failed_models.insert s.config_model_id
        ∧ (tfMark s).engines = s.engines.erase s.config_model_id
        ∧ (s.engines.Nodup → s.config_model_id ∉ (tfMark s).engines))
  ∧ (s.config_model_id ∉ s.engines → tfMark s = s)
  ∧ ((s.config_fallback_models.filter
        (fun m => !decide (m ∈ (tfMark s).failed_models))) ≠ [] →
      try_fallback s = (true, tfMark s))
  ∧ ((s.config_fallback_models.filter
        (fun m => !decide (m ∈ (tfMark s).failed_models))) = [] →
      (s.current_device = "cuda" ∧ s.tried_cpu_fallback = false →
          (try_fallback s).1 = true
            ∧ (try_fallback s).2 = { tfMark s with
                                     current_device := "cpu",
                                     tried_cpu_fallback := true,
                                     failed_models := [],
                                     engines := [] })
        ∧ (¬(s.current_device = "cuda" ∧ s.tried_cpu_fallback = false) →
          try_fallback s = (false, tfMark s)))

theorem tfMark_current_device (s : STTEngineManager) :
    (tfMark s).current_device = s.current_device := by
  rw [tfMark]
  split <;> rfl

theorem tfMark_tried (s : STTEngineManager) :
    (tfMark s).tried_cpu_fallback = s.tried_cpu_fallback := by
  rw [tfMark]
  split <;> rfl

/-- C4 amended, proved: `try_fallback`'s mark step, return value and state
changes as the code implements them. -/
theorem claim_C4_try_fallback_amended (s : STTEngineManager) : claimC4AmendedStatement s := by
  refine ⟨?_, ?_, ?_, ?_⟩
  · intro hmem
    rw [tfMark, if_pos hmem]
    refine ⟨rfl, rfl, ?_⟩
    intro hnodup
    simp only
    exact List.Nodup.not_mem_erase hnodup
  · intro hmem
    rw [tfMark, if_neg hmem]
  · intro hrem
    rw [try_fallback, if_neg hrem]
  · intro hrem
    constructor
    · intro h
      obtain ⟨hdev, htried⟩ := h
      rw [try_fallback, if_pos hrem, attempt_cpu_fallback,
          if_pos (by rw [tfMark_current_device, tfMark_tried]; exact ⟨hdev, htried⟩)]
      exact ⟨rfl, rfl⟩
    · intro hno
      rw [try_fallback, if_pos hrem, attempt_cpu_fallback,
          if_neg (by rw [tfMark_current_device, tfMark_tried]; exact hno)]

/-- Witness for C4 amended at a concrete manager state with an engine entry
for the configured model, one clean fallback id, on CUDA. -/
theorem claim_C4_try_fallback_amended_witness :
    claimC4AmendedStatement ⟨"m", ["f"], "cuda", "cuda", ["m"], [], false⟩ :=
  claim_C4_try_fallback_amended ⟨"m", ["f"], "cuda", "cuda", ["m"], [], false⟩

/-! ## `TranscriptionService._transcribe_sync`
(`sidecar/stt/transcription.py`, lines 29-53; the loop in
`TranscriptionServiceServicer._transcribe_with_retry`,
`sidecar/grpc_server.py` lines 213-237, is identical).

The engine call is external; its outcome per attempt is an oracle value:
either a transcript or a raised exception already classified by
`is_oom_error`. -/

/-- Outcome of `engine.transcribe` on one attempt. -/
inductive EngineResult where
  | ok : Transcript → EngineResult
  | err : Bool → EngineResult
  deriving DecidableEq

/-- How the loop terminates exceptionally: a `TranscriptionError` raised by
the loop itself, or a non-OOM engine exception re-raised as-is. -/
inductive TransFailure where
  | transcriptionError : TransFailure
  | propagated : TransFailure
  deriving DecidableEq

def MAX_OOM_RETRIES : Nat := 3

/-- The `for attempt in range(MAX_OOM_RETRIES)` loop: each iteration calls
`get_engine()` (creating the map entry if absent), runs the engine, and on
an OOM-classified error consults `try_fallback()` — aborting with
`TranscriptionError` when it returns false, retrying otherwise; non-OOM
errors propagate.  Exhausting the range raises `TranscriptionError`.
Returns (outcome, attempts made, final manager state). -/
def transcribeSyncAux (oracle : Nat → EngineResult) :
    Nat → Nat → STTEngineManager → Except TransFailure Transcript × Nat × STTEngineManager
  | attempt, 0, s => (Except.error TransFailure.transcriptionError, attempt, s)
  | attempt, fuel + 1, s =>
    match oracle attempt with
    | EngineResult.ok t => (Except.ok t, attempt + 1, get_engine_state s)
    | EngineResult.err oom =>
      if oom then
        match try_fallback (get_engine_state s) with
        | (true, s') => transcribeSyncAux oracle (attempt + 1) fuel s'
        | (false, s') => (Except.error TransFailure.transcriptionError, attempt + 1, s')
      else (Except.error TransFailure.propagated, attempt + 1, get_engine_state s)

def transcribeSync (s : STTEngineManager) (oracle : Nat → EngineResult) :
    Except TransFailure Transcript × Nat × STTEngineManager :=
  transcribeSyncAux oracle 0 MAX_OOM_RETRIES s

/-- C3 counterexample: a CPU-device manager with no fallback models and an
engine that always raises OOM.  The claim predicts `TranscriptionError`
after exactly 3 attempts; the code raises it after the very first attempt,
because `try_fallback()` immediately returns false. -/
theorem claim_C3_counterexample :
    (transcribeSync ⟨"m", [], "cpu", "cpu", [], [], false⟩
        (fun _ => EngineResult.err true)).1
        = Except.error TransFailure.transcriptionError
      ∧ (transcribeSync ⟨"m", [], "cpu", "cpu", [], [], false⟩
          (fun _ => EngineResult.err true)).2.1 = 1
      ∧ ¬ (transcribeSync ⟨"m", [], "cpu", "cpu", [], [], false⟩
          (fun _ => EngineResult.err true)).2.1 = 3 := by
  refine ⟨rfl, rfl, ?_⟩
  intro h
  rw [show (transcribeSync ⟨"m", [], "cpu", "cpu", [], [], false⟩
      (fun _ => EngineResult.err true)).2.1 = 1 from rfl] at h
  omega

/-- C3 amended: with an engine that always raises an OOM-classified error,
the call raises `TranscriptionError` within at most 3 attempts; when the
first `try_fallback()` consultation returns false (no fallback model
remaining and no CPU transition possible), it does so after exactly **1**
attempt, not 3. -/
theorem claim_C3_oom_retries_amended (s : STTEngineManager)
    (oracle : Nat → EngineResult) (hoom : ∀ i, oracle i = EngineResult.err true) :
    (transcribeSync s oracle).1 = Except.error TransFailure.transcriptionError
      ∧ 1 ≤ (transcribeSync s oracle).2.1
      ∧ (transcribeSync s oracle).2.1 ≤ 3
      ∧ ((try_fallback (get_engine_state s)).1 = false →
          (transcribeSync s oracle).2.1 = 1) := by
  have step : ∀ (a fuel : Nat) (st : STTEngineManager),
      transcribeSyncAux oracle a (fuel + 1) st
        = (match try_fallback (get_engine_state st) with
           | (true, s') => transcribeSyncAux oracle (a + 1) fuel s'
           | (false, s') => (Except.error TransFailure.transcriptionError, a + 1, s')) := by
    intro a fuel st
    rw [transcribeSyncAux, hoom a]
    rfl
  rw [transcribeSync, MAX_OOM_RETRIES, step 0 2 s]
  rcases htf0 : try_fallback (get_engine_state s) with ⟨b0, s0⟩
  cases b0 with
  | false =>
    exact ⟨rfl, (by decide : (1 : Nat) ≤ 1), (by decide : (1 : Nat) ≤ 3), fun _ => rfl⟩
  | true =>
    have himp : ¬ (try_fallback (get_engine_state s)).1 = false := by
      rw [htf0]
      simp
    dsimp only
    rw [step (0 + 1) 1 s0]
    rcases htf1 : try_fallback (get_engine_state s0) with ⟨b1, s1⟩
    cases b1 with
    | false =>
      exact ⟨rfl, (by decide : (1 : Nat) ≤ 2), (by decide : (2 : Nat) ≤ 3),
        fun h => absurd h (by decide)⟩
    | true =>
      dsimp only
      rw [step (0 + 1 + 1) 0 s1]
      rcases htf2 : try_fallback (get_engine_state s1) with ⟨b2, s2⟩
      cases b2 with
      | false =>
        exact ⟨rfl, (by decide : (1 : Nat) ≤ 3), (by decide : (3 : Nat) ≤ 3),
          fun h => absurd h (by decide)⟩
      | true =>
        exact ⟨rfl, (by decide : (1 : Nat) ≤ 3), (by decide : (3 : Nat) ≤ 3),
          fun h => absurd h (by decide)⟩

/-- Witness for C3 amended at the always-OOM oracle on a CUDA manager with
no fallbacks: the CPU transition grants one extra round, then exhaustion. -/
theorem claim_C3_oom_retries_amended_witness :
    (∀ i : Nat, (fun _ : Nat => EngineResult.err true) i = EngineResult.err true)
      ∧ ((transcribeSync ⟨"m", [], "cuda", "cuda", [], [], false⟩
            (fun _ => EngineResult.err true)).1
          = Except.error TransFailure.transcriptionError
        ∧ 1 ≤ (transcribeSync ⟨"m", [], "cuda", "cuda", [], [], false⟩
            (fun _ => EngineResult.err true)).2.1
        ∧ (transcribeSync ⟨"m", [], "cuda", "cuda", [], [], false⟩
            (fun _ => EngineResult.err true)).2.1 ≤ 3
        ∧ ((try_fallback (get_engine_state ⟨"m", [], "cuda", "cuda", [], [], false⟩)).1 = false →
            (transcribeSync ⟨"m", [], "cuda", "cuda", [], [], false⟩
              (fun _ => EngineResult.err true)).2.1 = 1)) :=
  ⟨fun _ => rfl,
   claim_C3_oom_retries_amended ⟨"m", [], "cuda", "cuda", [], [], false⟩
     (fun _ => EngineResult.err true) (fun _ => rfl)⟩

/-! ## `VADProcessor` (`sidecar/stt/vad.py`)

The Silero VAD model is an external collaborator: the list of
`(start_sample, end_sample)` speech spans it returns for the current
1000 ms window is an oracle input `rawTs` to `append`. -/

def MS_SAMPLE_RATE : Nat := 16

def VAD_WINDOW_SIZE_SAMPLES : Nat := 1000 * MS_SAMPLE_RATE

def MAX_BUFFER_SAMPLES : Nat := (15000 + 3000 + 1000) * MS_SAMPLE_RATE

structure VADConfig where
  threshold : ℚ := 6 / 10
  min_silence_duration_ms : Int := 500
  speech_pad_ms : Int := 100
  min_speech_duration_ms : Int := 250
  min_audio_duration_ms : Int := 300
  max_utterance_ms : Int := 15000
  deriving DecidableEq

structure VADState where
  audio_start_ms : Option Int := none
  audio_end_ms : Option Int := none
  deriving DecidableEq

structure SpeechSegment where
  audio : List Int
  start_ms : Int
  end_ms : Int
  deriving DecidableEq

/-- `SpeechStarted`/`SpeechStopped` events.  The timestamp is read from the
mutable `self.state` at construction time, which can be `None`. -/
inductive VADEvent where
  | started : Option Int → VADEvent
  | stopped : Option Int → VADEvent
  deriving DecidableEq

structure VADProcessor where
  config : VADConfig
  state : VADState
  buffer : AudioRingBuffer

/-- `self._duration_ms()`: `len(self.buffer) // MS_SAMPLE_RATE`. -/
def bufDurationMs (b : AudioRingBuffer) : Int := ((b.len / MS_SAMPLE_RATE : Nat) : Int)

/-- `window_duration_ms = len(audio_window) // MS_SAMPLE_RATE` for the
1000 ms tail window passed to the VAD model. -/
def windowDurationMs (b : AudioRingBuffer) : Int :=
  (((b.get_last_n VAD_WINDOW_SIZE_SAMPLES).length / MS_SAMPLE_RATE : Nat) : Int)

/-- Collapse the model's span list to `{start: min starts, end: max ends}`
(vad.py lines 194-200), `None` when the list is empty. -/
def mergedSpan : List (Nat × Nat) → Option (Nat × Nat)
  | [] => none
  | t :: rest =>
    some (rest.foldl (fun a x => min a x.1) t.1, rest.foldl (fun a x => max a x.2) t.2)

/-- `_extract_segment` (vad.py lines 234-245): slice
`[audio_start_ms * 16, audio_end_ms * 16)` out of the ring buffer; an empty
zero segment when either bound is unset. -/
def extractSegment (st : VADState) (b : AudioRingBuffer) : SpeechSegment :=
  match st.audio_start_ms, st.audio_end_ms with
  | some s, some e => ⟨b.get_slice (s * (MS_SAMPLE_RATE : Int)) (e * (MS_SAMPLE_RATE : Int)), s, e⟩
  | _, _ => ⟨[], 0, 0⟩

/-- The closing path of `append` (vad.py lines 212-230) after
`audio_end_ms` has been set in `st1`: extract the segment, clear buffer and
state, emit `SpeechStopped`, suppressing the segment when shorter than
`min_audio_duration_ms`.  Note the Python constructs
`SpeechStopped(timestamp_ms=self.state.audio_end_ms)` *after*
`_clear_buffer()` replaced `self.state` with a fresh `VADState`, so the
emitted timestamp is `None` (modelled by reading the fresh state). -/
def vadClose1 (cfg : VADConfig) (st1 : VADState) (b : AudioRingBuffer) :
    VADProcessor × Option VADEvent × Option SpeechSegment :=
  if (extractSegment st1 b).end_ms - (extractSegment st1 b).start_ms
      < cfg.min_audio_duration_ms then
    (⟨cfg, ⟨none, none⟩, b.clear⟩,
     some (VADEvent.stopped (VADState.mk none none).audio_end_ms), none)
  else
    (⟨cfg, ⟨none, none⟩, b.clear⟩,
     some (VADEvent.stopped (VADState.mk none none).audio_end_ms),
     some (extractSegment st1 b))

/-- `self.state.audio_end_ms = self._duration_ms() - self.config.speech_pad_ms`
followed by the common closing path. -/
def vadClose (cfg : VADConfig) (st : VADState) (b : AudioRingBuffer) :
    VADProcessor × Option VADEvent × Option SpeechSegment :=
  vadClose1 cfg { st with audio_end_ms := some (bufDurationMs b - cfg.speech_pad_ms) } b

/-- The state machine of `append` after the new audio has been appended to
the ring buffer `b` and the VAD model produced `rawTs` on the window. -/
def vadStep (cfg : VADConfig) (st : VADState) (b : AudioRingBuffer)
    (rawTs : List (Nat × Nat)) : VADProcessor × Option VADEvent × Option SpeechSegment :=
  match st.audio_start_ms with
  | none =>
    match mergedSpan rawTs with
    | none => (⟨cfg, st, b⟩, none, none)
    | some span =>
      (⟨cfg, ⟨some (bufDurationMs b - windowDurationMs b + ((span.1 / MS_SAMPLE_RATE : Nat) : Int)),
             st.audio_end_ms⟩, b⟩,
       some (VADEvent.started
         (some (bufDurationMs b - windowDurationMs b + ((span.1 / MS_SAMPLE_RATE : Nat) : Int)))),
       none)
  | some _ =>
    match mergedSpan rawTs with
    | none => vadClose cfg st b
    | some _ =>
      if cfg.max_utterance_ms ≤ bufDurationMs b then vadClose cfg st b
      else (⟨cfg, st, b⟩, none, none)

/-- `VADProcessor.append(audio)` (vad.py lines 180-232). -/
def VADProcessor.append (p : VADProcessor) (audio : List Int)
    (rawTs : List (Nat × Nat)) : VADProcessor × Option VADEvent × Option SpeechSegment :=
  vadStep p.config p.state (p.buffer.append audio) rawTs

/-- `VADProcessor.reset` / `_clear_buffer`. -/
def VADProcessor.reset (p : VADProcessor) : VADProcessor :=
  ⟨p.config, ⟨none, none⟩, p.buffer.clear⟩

/-- C2: whenever `append` closes an open utterance (merged span absent, or
buffered duration at/above `max_utterance_ms`), it sets the closing
timestamp to `buf_ms − speech_pad_ms` (visible as the segment's `end_ms`
and in the suppression test), clears the buffer and the VAD state, and
returns a `SpeechStopped` event; the segment is returned iff
`end_ms − start_ms ≥ min_audio_duration_ms`, a shorter segment being
suppressed while `SpeechStopped` is still returned.  (The emitted
`SpeechStopped` carries timestamp `None` because the state is cleared
before the event is constructed — the claim does not constrain it.) -/
theorem claim_C2_vad_close (cfg : VADConfig) (st : VADState) (b0 : AudioRingBuffer)
    (audio : List Int) (rawTs : List (Nat × Nat)) (s : Int)
    (hstart : st.audio_start_ms = some s)
    (hclose : mergedSpan rawTs = none
      ∨ cfg.max_utterance_ms ≤ bufDurationMs (b0.append audio)) :
    (VADProcessor.append ⟨cfg, st, b0⟩ audio rawTs).1.state = ⟨none, none⟩
      ∧ (VADProcessor.append ⟨cfg, st, b0⟩ audio rawTs).1.buffer.len = 0
      ∧ (VADProcessor.append ⟨cfg, st, b0⟩ audio rawTs).1.buffer.wp = 0
      ∧ (VADProcessor.append ⟨cfg, st, b0⟩ audio rawTs).2.1
          = some (VADEvent.stopped none)
      ∧ ((VADProcessor.append ⟨cfg, st, b0⟩ audio rawTs).2.2.isSome
          ↔ cfg.min_audio_duration_ms
              ≤ (bufDurationMs (b0.append audio) - cfg.speech_pad_ms) - s)
      ∧ (∀ seg, (VADProcessor.append ⟨cfg, st, b0⟩ audio rawTs).2.2 = some seg →
          seg.start_ms = s
            ∧ seg.end_ms = bufDurationMs (b0.append audio) - cfg.speech_pad_ms
            ∧ seg.audio = (b0.append audio).get_slice (s * (MS_SAMPLE_RATE : Int))
                ((bufDurationMs (b0.append audio) - cfg.speech_pad_ms) * (MS_SAMPLE_RATE : Int))) := by
  have hc : VADProcessor.append ⟨cfg, st, b0⟩ audio rawTs
      = vadClose cfg st (b0.append audio) := by
    rw [VADProcessor.append]
    simp only
    rw [vadStep, hstart]
    rcases hclose with hclose | hclose
    · rw [hclose]
    · match hm : mergedSpan rawTs with
      | none => rfl
      | some span => rw [if_pos hclose]
  rw [hc, vadClose, vadClose1]
  have hext : extractSegment
      { st with audio_end_ms := some (bufDurationMs (b0.append audio) - cfg.speech_pad_ms) }
      (b0.append audio)
      = ⟨(b0.append audio).get_slice (s * (MS_SAMPLE_RATE : Int))
          ((bufDurationMs (b0.append audio) - cfg.speech_pad_ms) * (MS_SAMPLE_RATE : Int)),
         s, bufDurationMs (b0.append audio) - cfg.speech_pad_ms⟩ := by
    rw [extractSegment]
    simp only [hstart]
  rw [hext]
  by_cases hlen : (bufDurationMs (b0.append audio) - cfg.speech_pad_ms) - s
      < cfg.min_audio_duration_ms
  · rw [if_pos (by simpa using hlen)]
    refine ⟨rfl, rfl, rfl, rfl, ?_, ?_⟩
    · simp only [Option.isSome_none]
      constructor
      · intro h
        simp at h
      · intro h
        exact absurd h (by omega)
    · intro seg hseg
      exact absurd hseg (by simp)
  · rw [if_neg (by simpa using hlen)]
    refine ⟨rfl, rfl, rfl, rfl, ?_, ?_⟩
    · simp only [Option.isSome_some]
      constructor
      · intro _
        omega
      · intro _
        trivial
    · intro seg hseg
      have := Option.some.inj hseg
      subst this
      exact ⟨rfl, rfl, rfl⟩

/-- Witness for C2 on a fresh default-config processor mid-utterance
(`audio_start_ms = 0`) with an empty window result: the merged span is
absent, the utterance closes, and the (negative-length) segment is
suppressed while `SpeechStopped` is still returned. -/
theorem claim_C2_vad_close_witness :
    ((⟨some 0, none⟩ : VADState).audio_start_ms = some 0
        ∧ mergedSpan [] = none)
      ∧ ((VADProcessor.append ⟨{}, ⟨some 0, none⟩, AudioRingBuffer.init MAX_BUFFER_SAMPLES⟩
            [] []).1.state = ⟨none, none⟩
        ∧ (VADProcessor.append ⟨{}, ⟨some 0, none⟩, AudioRingBuffer.init MAX_BUFFER_SAMPLES⟩
            [] []).1.buffer.len = 0
        ∧ (VADProcessor.append ⟨{}, ⟨some 0, none⟩, AudioRingBuffer.init MAX_BUFFER_SAMPLES⟩
            [] []).1.buffer.wp = 0
        ∧ (VADProcessor.append ⟨{}, ⟨some 0, none⟩, AudioRingBuffer.init MAX_BUFFER_SAMPLES⟩
            [] []).2.1 = some (VADEvent.stopped none)
        ∧ ((VADProcessor.append ⟨{}, ⟨some 0, none⟩, AudioRingBuffer.init MAX_BUFFER_SAMPLES⟩
            [] []).2.2.isSome
            ↔ ({} : VADConfig).min_audio_duration_ms
                ≤ (bufDurationMs ((AudioRingBuffer.init MAX_BUFFER_SAMPLES).append [])
                    - ({} : VADConfig).speech_pad_ms) - 0)
        ∧ (∀ seg, (VADProcessor.append ⟨{}, ⟨some 0, none⟩,
              AudioRingBuffer.init MAX_BUFFER_SAMPLES⟩ [] []).2.2 = some seg →
            seg.start_ms = 0
              ∧ seg.end_ms = bufDurationMs ((AudioRingBuffer.init MAX_BUFFER_SAMPLES).append [])
                  - ({} : VADConfig).speech_pad_ms
              ∧ seg.audio = ((AudioRingBuffer.init MAX_BUFFER_SAMPLES).append []).get_slice
                  (0 * (MS_SAMPLE_RATE : Int))
                  ((bufDurationMs ((AudioRingBuffer.init MAX_BUFFER_SAMPLES).append [])
                    - ({} : VADConfig).speech_pad_ms) * (MS_SAMPLE_RATE : Int)))) :=
  ⟨⟨rfl, rfl⟩,
   claim_C2_vad_close {} ⟨some 0, none⟩ (AudioRingBuffer.init MAX_BUFFER_SAMPLES) [] [] 0
     rfl (Or.inl rfl)⟩

/-! ## `STTPipeline` (`sidecar/stt/pipeline.py`)

The STT engine and the EOU classifier are external collaborators: the
engine's transcript for the cut segment (`engineT`) and the classifier's
probability (`eouP`) are oracle inputs. -/

def MAX_HISTORY_TURNS : Nat := 4

structure ConversationTurn where
  role : String
  content : List Char
  deriving DecidableEq

structure EOUConfig where
  threshold : ℚ := 1 / 2
  max_context_turns : Nat := MAX_HISTORY_TURNS
  deriving DecidableEq

structure STTPipeline where
  eou_config : EOUConfig
  vad : VADProcessor
  conversation_history : List ConversationTurn
  pending_user_text : List Char

/-- The history trim applied after each append (pipeline.py lines 143-144
and 201-202): keep the last `MAX_HISTORY_TURNS * 2` entries — note the
module constant, not the configured `max_context_turns`. -/
def trimHistory (l : List ConversationTurn) : List ConversationTurn :=
  if MAX_HISTORY_TURNS * 2 < l.length then lastN (MAX_HISTORY_TURNS * 2) l else l

/-- `add_assistant_turn` (pipeline.py lines 140-144). -/
def STTPipeline.add_assistant_turn (p : STTPipeline) (text : List Char) : STTPipeline :=
  if (pyStrip text).isEmpty then p
  else { p with conversation_history :=
      trimHistory (p.conversation_history ++ [⟨"assistant", pyStrip text⟩]) }

/-- `_add_eou_probability` (pipeline.py lines 187-206): extend the pending
user text, attach the classifier's probability (oracle `eouP`), and commit
one user turn (then trim) iff the probability reaches the threshold. -/
def addEouProbability (p : STTPipeline) (t : Transcript) (eouP : ℚ) :
    Transcript × STTPipeline :=
  if p.eou_config.threshold ≤ eouP then
    ({ t with eou_probability := some eouP },
     { p with
       conversation_history :=
         trimHistory (p.conversation_history
           ++ [⟨"user", pyStrip (p.pending_user_text ++ ' ' :: t.text)⟩]),
       pending_user_text := [] })
  else
    ({ t with eou_probability := some eouP },
     { p with pending_user_text := pyStrip (p.pending_user_text ++ ' ' :: t.text) })

/-- `_transcribe_segment` (pipeline.py lines 168-185): the engine call is
the oracle `engineT`; the code then overwrites `start_ms`/`end_ms` with the
segment's bounds. -/
def transcribeSegment (engineT : Transcript) (sg : SpeechSegment) : Transcript :=
  { engineT with start_ms := sg.start_ms, end_ms := sg.end_ms }

inductive PipelineEvent where
  | started : Option Int → PipelineEvent
  | stopped : Option Int → PipelineEvent
  | transcript : Transcript → PipelineEvent
  deriving DecidableEq

/-- The yields of `process_audio` (pipeline.py lines 150-166) given the VAD
step's results.  Note `yield transcript` sits *outside* the
`if transcript.text:` guard: the transcript is yielded for every non-empty
segment, with the EOU probability attached only when the text is
non-empty. -/
def processEvents (p : STTPipeline) (vad' : VADProcessor) (ev : Option VADEvent)
    (seg : Option SpeechSegment) (engineT : Transcript) (eouP : ℚ) :
    List PipelineEvent × STTPipeline :=
  match ev with
  | some (VADEvent.started ts) => ([PipelineEvent.started ts], { p with vad := vad' })
  | some (VADEvent.stopped ts) =>
    match seg with
    | some sg =>
      if 0 < sg.audio.length then
        if ¬ (transcribeSegment engineT sg).text.isEmpty then
          ([PipelineEvent.stopped ts,
            PipelineEvent.transcript (addEouProbability p (transcribeSegment engineT sg) eouP).1],
           { (addEouProbability p (transcribeSegment engineT sg) eouP).2 with vad := vad' })
        else
          ([PipelineEvent.stopped ts, PipelineEvent.transcript (transcribeSegment engineT sg)],
           { p with vad := vad' })
      else ([PipelineEvent.stopped ts], { p with vad := vad' })
    | none => ([PipelineEvent.stopped ts], { p with vad := vad' })
  | none => ([], { p with vad := vad' })

/-- `STTPipeline.process_audio(audio)`. -/
def STTPipeline.process_audio (p : STTPipeline) (audio : List Int)
    (rawTs : List (Nat × Nat)) (engineT : Transcript) (eouP : ℚ) :
    List PipelineEvent × STTPipeline :=
  processEvents p (VADProcessor.append p.vad audio rawTs).1
    (VADProcessor.append p.vad audio rawTs).2.1
    (VADProcessor.append p.vad audio rawTs).2.2 engineT eouP

/-- C5 as stated by the spec: on a `SpeechStopped` with a non-empty
segment, a final `Transcript` is emitted *only if* the transcribed text is
non-empty, in which case it carries an EOU probability and the segment's
bounds. -/
def claimC5Statement (p : STTPipeline) (audio : List Int) (rawTs : List (Nat × Nat))
    (engineT : Transcript) (eouP : ℚ) : Prop :=
  ∀ ts sg,
    (VADProcessor.append p.vad audio rawTs).2.1 = some (VADEvent.stopped ts) →
    (VADProcessor.append p.vad audio rawTs).2.2 = some sg →
    sg.audio ≠ [] →
    ((engineT.text = [] →
        ∀ t, PipelineEvent.transcript t ∉ (p.process_audio audio rawTs engineT eouP).1)
      ∧ (engineT.text ≠ [] →
        ∀ t, PipelineEvent.transcript t ∈ (p.process_audio audio rawTs engineT eouP).1 →
          t.eou_probability.isSome ∧ t.start_ms = sg.start_ms ∧ t.end_ms = sg.end_ms))

/-- C5 counterexample: a mid-utterance pipeline (16 buffered samples,
`speech_pad_ms = 0`, `min_audio_duration_ms = 0`) whose engine returns an
empty text still emits a final `Transcript` (with empty text and no EOU
probability) after `SpeechStopped`. -/
theorem claim_C5_counterexample :
    ¬ claimC5Statement
        ⟨{}, ⟨{ speech_pad_ms := 0, min_audio_duration_ms := 0 }, ⟨some 0, none⟩,
          (AudioRingBuffer.init MAX_BUFFER_SAMPLES).append (List.replicate 16 1)⟩, [], []⟩
        [] [] {} 0 := by
  intro h
  have h2 := (h none ⟨List.replicate 16 1, 0, 1⟩ (by decide) (by decide) (by decide)).1 rfl
  exact h2 { ({} : Transcript) with start_ms := 0, end_ms := 1 } (by decide)

theorem trimHistory_eq_lastN (l : List ConversationTurn) :
    trimHistory l = lastN (MAX_HISTORY_TURNS * 2) l := by
  rw [trimHistory]
  split
  · rfl
  · rw [lastN_of_length_le (by omega)]

/-- C5 amended: on a `SpeechStopped` carrying a non-empty segment, the
segment is transcribed and the final `Transcript` is *always* emitted; the
EOU probability is attached iff the transcribed text is non-empty, and
`start_ms`/`end_ms` come from the segment either way. -/
theorem claim_C5_final_transcript_amended (p : STTPipeline) (audio : List Int)
    (rawTs : List (Nat × Nat)) (engineT : Transcript) (eouP : ℚ) (ts : Option Int)
    (sg : SpeechSegment)
    (hev : (VADProcessor.append p.vad audio rawTs).2.1 = some (VADEvent.stopped ts))
    (hseg : (VADProcessor.append p.vad audio rawTs).2.2 = some sg)
    (hne : sg.audio ≠ []) :
    (p.process_audio audio rawTs engineT eouP).1
        = [PipelineEvent.stopped ts,
           PipelineEvent.transcript
             (if ¬ (transcribeSegment engineT sg).text.isEmpty
              then (addEouProbability p (transcribeSegment engineT sg) eouP).1
              else transcribeSegment engineT sg)]
      ∧ (transcribeSegment engineT sg).text = engineT.text
      ∧ (transcribeSegment engineT sg).start_ms = sg.start_ms
      ∧ (transcribeSegment engineT sg).end_ms = sg.end_ms
      ∧ (transcribeSegment engineT sg).eou_probability = engineT.eou_probability
      ∧ (addEouProbability p (transcribeSegment engineT sg) eouP).1.eou_probability = some eouP
      ∧ (addEouProbability p (transcribeSegment engineT sg) eouP).1.start_ms = sg.start_ms
      ∧ (addEouProbability p (transcribeSegment engineT sg) eouP).1.end_ms = sg.end_ms := by
  have hfst : (addEouProbability p (transcribeSegment engineT sg) eouP).1
      = { transcribeSegment engineT sg with eou_probability := some eouP } := by
    rw [addEouProbability]
    split <;> rfl
  constructor
  · rw [STTPipeline.process_audio, hev, hseg, processEvents]
    rw [if_pos (by cases hsga : sg.audio with
      | nil => exact absurd hsga hne
      | cons a l => simp [hsga])]
    by_cases htext : (transcribeSegment engineT sg).text.isEmpty
    · rw [if_neg (by simpa using htext), if_neg (by simpa using htext)]
    · rw [if_pos htext, if_pos htext]
  · exact ⟨rfl, rfl, rfl, rfl, by rw [hfst], by rw [hfst]; rfl, by rw [hfst]; rfl⟩

/-- Witness for C5 amended at the concrete closing state of the C5
counterexample, with a non-empty engine text. -/
theorem claim_C5_final_transcript_amended_witness :
    ((VADProcessor.append (⟨{ speech_pad_ms := 0, min_audio_duration_ms := 0 },
          ⟨some 0, none⟩,
          (AudioRingBuffer.init MAX_BUFFER_SAMPLES).append (List.replicate 16 1)⟩ :
            VADProcessor) [] []).2.1 = some (VADEvent.stopped none)
        ∧ (VADProcessor.append (⟨{ speech_pad_ms := 0, min_audio_duration_ms := 0 },
          ⟨some 0, none⟩,
          (AudioRingBuffer.init MAX_BUFFER_SAMPLES).append (List.replicate 16 1)⟩ :
            VADProcessor) [] []).2.2 = some ⟨List.replicate 16 1, 0, 1⟩
        ∧ (⟨List.replicate 16 1, 0, 1⟩ : SpeechSegment).audio ≠ [])
      ∧ ((⟨{}, ⟨{ speech_pad_ms := 0, min_audio_duration_ms := 0 }, ⟨some 0, none⟩,
            (AudioRingBuffer.init MAX_BUFFER_SAMPLES).append (List.replicate 16 1)⟩,
            [], []⟩ : STTPipeline).process_audio [] [] { text := ['h', 'i'] } (3 / 4)).1
          = [PipelineEvent.stopped none,
             PipelineEvent.transcript
               (if ¬ (transcribeSegment { text := ['h', 'i'] } ⟨List.replicate 16 1, 0, 1⟩).text.isEmpty
                then (addEouProbability
                    ⟨{}, ⟨{ speech_pad_ms := 0, min_audio_duration_ms := 0 }, ⟨some 0, none⟩,
                      (AudioRingBuffer.init MAX_BUFFER_SAMPLES).append (List.replicate 16 1)⟩,
                      [], []⟩
                    (transcribeSegment { text := ['h', 'i'] } ⟨List.replicate 16 1, 0, 1⟩) (3 / 4)).1
                else transcribeSegment { text := ['h', 'i'] } ⟨List.replicate 16 1, 0, 1⟩)] :=
  ⟨⟨by decide, by decide, by decide⟩,
   (claim_C5_final_transcript_amended
      ⟨{}, ⟨{ speech_pad_ms := 0, min_audio_duration_ms := 0 }, ⟨some 0, none⟩,
        (AudioRingBuffer.init MAX_BUFFER_SAMPLES).append (List.replicate 16 1)⟩, [], []⟩
      [] [] { text := ['h', 'i'] } (3 / 4) none ⟨List.replicate 16 1, 0, 1⟩
      (by decide) (by decide) (by decide)).1⟩

/-- C9 as stated by the spec: one user turn per committed final transcript,
and the history bounded by `2 * max_context_turns` (the *configured*
value) after each extending operation. -/
def claimC9Statement (p : STTPipeline) (t : Transcript) (eouP : ℚ)
    (atext : List Char) : Prop :=
  (p.eou_config.threshold ≤ eouP →
      (addEouProbability p t eouP).2.conversation_history.length
          ≤ 2 * p.eou_config.max_context_turns
        ∧ (addEouProbability p t eouP).2.pending_user_text = []
        ∧ (addEouProbability p t eouP).2.conversation_history
            = lastN (2 * p.eou_config.max_context_turns)
                (p.conversation_history
                  ++ [⟨"user", pyStrip (p.pending_user_text ++ ' ' :: t.text)⟩]))
    ∧ (eouP < p.eou_config.threshold →
        (addEouProbability p t eouP).2.conversation_history = p.conversation_history)
    ∧ (¬ (pyStrip atext).isEmpty →
        (p.add_assistant_turn atext).conversation_history.length
          ≤ 2 * p.eou_config.max_context_turns)

/-- C9 counterexample: with `max_context_turns` configured to 2 and six
turns already in the history, a committed transcript leaves 7 entries —
the code trims with the constant `MAX_HISTORY_TURNS * 2 = 8`, not with the
configured `2 * max_context_turns = 4`. -/
theorem claim_C9_counterexample :
    ¬ claimC9Statement
        ⟨⟨1 / 2, 2⟩, ⟨{}, ⟨none, none⟩, AudioRingBuffer.init MAX_BUFFER_SAMPLES⟩,
          List.replicate 6 ⟨"user", ['a']⟩, []⟩
        { text := ['h', 'i'] } 1 ['x'] := by
  intro h
  have hb := (h.1 (by norm_num)).1
  have hlen : (addEouProbability
      ⟨⟨1 / 2, 2⟩, ⟨{}, ⟨none, none⟩, AudioRingBuffer.init MAX_BUFFER_SAMPLES⟩,
        List.replicate 6 ⟨"user", ['a']⟩, []⟩
      { text := ['h', 'i'] } 1).2.conversation_history.length = 7 := by
    rw [addEouProbability, if_pos (by norm_num)]
    rfl
  rw [hlen] at hb
  exact absurd hb (by decide)

/-- C9 amended: exactly one user turn (content: the accumulated pending
text) is appended on commit (`eou_probability ≥ threshold`), clearing the
pending text, and none otherwise; every extending operation leaves the
history trimmed to at most `2 * MAX_HISTORY_TURNS = 8` entries — the
module constant, regardless of the configured `max_context_turns`. -/
theorem claim_C9_eou_commit_amended (p : STTPipeline) (t : Transcript) (eouP : ℚ)
    (atext : List Char) :
    ((addEouProbability p t eouP).1 = { t with eou_probability := some eouP })
      ∧ (p.eou_config.threshold ≤ eouP →
          (addEouProbability p t eouP).2.conversation_history
              = lastN (MAX_HISTORY_TURNS * 2)
                  (p.conversation_history
                    ++ [⟨"user", pyStrip (p.pending_user_text ++ ' ' :: t.text)⟩])
            ∧ (addEouProbability p t eouP).2.pending_user_text = []
            ∧ (addEouProbability p t eouP).2.conversation_history.length
                ≤ MAX_HISTORY_TURNS * 2)
      ∧ (eouP < p.eou_config.threshold →
          (addEouProbability p t eouP).2.conversation_history = p.conversation_history
            ∧ (addEouProbability p t eouP).2.pending_user_text
                = pyStrip (p.pending_user_text ++ ' ' :: t.text))
      ∧ (¬ (pyStrip atext).isEmpty →
          (p.add_assistant_turn atext).conversation_history
              = lastN (MAX_HISTORY_TURNS * 2)
                  (p.conversation_history ++ [⟨"assistant", pyStrip atext⟩])
            ∧ (p.add_assistant_turn atext).conversation_history.length
                ≤ MAX_HISTORY_TURNS * 2) := by
  refine ⟨?_, ?_, ?_, ?_⟩
  · rw [addEouProbability]
    split <;> rfl
  · intro hc
    rw [addEouProbability, if_pos hc]
    refine ⟨by rw [trimHistory_eq_lastN], rfl, ?_⟩
    rw [trimHistory_eq_lastN]
    simp only [length_lastN]
    omega
  · intro hc
    rw [addEouProbability, if_neg (not_le.mpr hc)]
    exact ⟨rfl, rfl⟩
  · intro hc
    rw [STTPipeline.add_assistant_turn, if_neg hc]
    refine ⟨by rw [trimHistory_eq_lastN], ?_⟩
    rw [trimHistory_eq_lastN]
    simp only [length_lastN]
    omega

/-! ## `chunk_text` (`sidecar/shared/utils.py`, lines 14-49) -/

theorem dropWhile_length_le (p : Char → Bool) (l : List Char) :
    (l.dropWhile p).length ≤ l.length :=
  (List.dropWhile_sublist p).length_le

/-- Sentence terminators of the regex `(?<=[.!?])\s+`. -/
def isSentEnd : Option Char → Bool
  | some c => c = '.' || c = '!' || c = '?'
  | none => false

/-- `re.split(r'(?<=[.!?])\s+', text)`: a maximal whitespace run immediately
preceded by `.`, `!` or `?` separates sentences.  `acc` holds the current
sentence reversed, so `acc.head?` is the previous character. -/
def reSplitAux (acc : List Char) : List Char → List (List Char)
  | [] => [acc.reverse]
  | c :: rest =>
    if isSentEnd acc.head? && isWs c then
      acc.reverse :: reSplitAux [] (rest.dropWhile isWs)
    else reSplitAux (c :: acc) rest
termination_by l => l.length
decreasing_by
  · simp only [List.length_cons]
    have := dropWhile_length_le isWs rest
    omega
  · simp only [List.length_cons]
    omega

def reSplitSentences (text : List Char) : List (List Char) := reSplitAux [] text

/-- `f"{current} {part}".strip() if current else part`. -/
def joinPair (a b : List Char) : List Char :=
  if a.isEmpty then b else pyStrip (a ++ ' ' :: b)

/-- `if current: chunks.append(current)` — the chunk list with the pending
current chunk flushed. -/
def chunksOf (st : List (List Char) × List Char) : List (List Char) :=
  if st.2.isEmpty then st.1 else st.1 ++ [st.2]

/-- One iteration of the inner word loop (utils.py lines 36-42). -/
def wordStep (maxChars : Nat) (st : List (List Char) × List Char) (word : List Char) :
    List (List Char) × List Char :=
  if st.2.length + word.length + 1 ≤ maxChars then (st.1, joinPair st.2 word)
  else (chunksOf st, word)

/-- One iteration of the sentence loop (utils.py lines 24-44). -/
def sentenceStep (maxChars : Nat) (st : List (List Char) × List Char)
    (sentence : List Char) : List (List Char) × List Char :=
  if (pyStrip sentence).isEmpty then st
  else if st.2.length + sentence.length + 1 ≤ maxChars then (st.1, joinPair st.2 sentence)
  else if maxChars < sentence.length then
    (splitWs sentence).foldl (wordStep maxChars) (chunksOf st, [])
  else (chunksOf st, sentence)

/-- `return chunks if chunks else [text]` after the final flush. -/
def chunkFinish (st : List (List Char) × List Char) (text : List Char) :
    List (List Char) :=
  if chunksOf st = [] then [text] else chunksOf st

/-- `chunk_text(text, max_chars)` (utils.py lines 14-49). -/
def chunk_text (text : List Char) (maxChars : Nat) : List (List Char) :=
  if text.length ≤ maxChars then [text]
  else chunkFinish ((reSplitSentences text).foldl (sentenceStep maxChars) ([], [])) text

/-- Python `" ".join(t.split())` — whitespace normalisation. -/
def normalizeWs (t : List Char) : List Char := joinSpace (splitWs t)

theorem splitWs_append_ws {c : Char} (hc : isWs c) (a b : List Char) :
    splitWs (a ++ c :: b) = splitWs a ++ splitWs b :=
  splitWsAux_append_ws hc a b []

theorem joinPair_words (a b : List Char) :
    splitWs (joinPair a b) = splitWs a ++ splitWs b := by
  rw [joinPair]
  by_cases ha : a.isEmpty
  · rw [if_pos ha, List.isEmpty_iff.mp ha]
    rfl
  · rw [if_neg ha, splitWs_pyStrip, splitWs_append_ws (by decide)]

theorem splitWs_joinSpace_flatten (ls : List (List Char)) :
    splitWs (joinSpace ls) = (ls.map splitWs).flatten := by
  induction ls with
  | nil => rfl
  | cons a t ih =>
    match t with
    | [] => simp [joinSpace]
    | b :: t2 =>
      rw [joinSpace_cons₂, splitWs_append_ws (by decide), List.map_cons, List.flatten_cons, ih]

/-- The word multiset tracked through the fold: the words of the emitted
chunks followed by the words of the pending current chunk. -/
def chunkWords (st : List (List Char) × List Char) : List (List Char) :=
  (st.1.map splitWs).flatten ++ splitWs st.2

theorem chunkWords_chunksOf (st : List (List Char) × List Char) :
    ((chunksOf st).map splitWs).flatten = chunkWords st := by
  rw [chunksOf, chunkWords]
  by_cases h : st.2.isEmpty
  · rw [if_pos h, List.isEmpty_iff.mp h]
    simp [splitWs, splitWsAux]
  · rw [if_neg h]
    simp

theorem wordStep_words (m : Nat) (st : List (List Char) × List Char) (w : List Char) :
    chunkWords (wordStep m st w) = chunkWords st ++ splitWs w := by
  rw [wordStep]
  by_cases h : st.2.length + w.length + 1 ≤ m
  · rw [if_pos h]
    rw [chunkWords, chunkWords]
    simp only
    rw [joinPair_words, List.append_assoc]
  · rw [if_neg h]
    rw [chunkWords]
    simp only
    rw [chunkWords_chunksOf, chunkWords]

theorem foldl_wordStep_words (m : Nat) (ws : List (List Char)) :
    ∀ st, chunkWords (ws.foldl (wordStep m) st) = chunkWords st ++ (ws.map splitWs).flatten := by
  induction ws with
  | nil => intro st; simp
  | cons w t ih =>
    intro st
    rw [List.foldl_cons, ih, wordStep_words]
    simp

theorem flatten_map_splitWs (s : List Char) :
    (((splitWs s).map splitWs)).flatten = splitWs s := by
  have hsound : ∀ w ∈ splitWs s, ¬ w.isEmpty = true ∧ ∀ c ∈ w, ¬ isWs c = true :=
    fun w hw => splitWsAux_sound (by simp) w hw
  revert hsound
  generalize splitWs s = ws
  induction ws with
  | nil => intro _; rfl
  | cons w t ih =>
    intro hsound
    obtain ⟨hne, hnw⟩ := hsound w (by simp)
    rw [List.map_cons, List.flatten_cons,
        show splitWs w = [w] by
          rw [splitWs, splitWsAux_all_nonws hnw]
          simp only [List.reverse_nil, List.nil_append]
          rw [if_neg (by simpa using hne)]]
    rw [ih (fun v hv => hsound v (by simp [hv]))]
    rfl

theorem sentenceStep_words (m : Nat) (st : List (List Char) × List Char)
    (s : List Char) : chunkWords (sentenceStep m st s) = chunkWords st ++ splitWs s := by
  rw [sentenceStep]
  by_cases hskip : (pyStrip s).isEmpty
  · rw [if_pos hskip]
    have : splitWs s = [] := by
      rw [← splitWs_pyStrip, List.isEmpty_iff.mp hskip]
      rfl
    rw [this, List.append_nil]
  · rw [if_neg hskip]
    by_cases hjoin : st.2.length + s.length + 1 ≤ m
    · rw [if_pos hjoin, chunkWords, chunkWords]
      simp only
      rw [joinPair_words, List.append_assoc]
    · rw [if_neg hjoin]
      by_cases hlong : m < s.length
      · rw [if_pos hlong, foldl_wordStep_words, flatten_map_splitWs, chunkWords]
        simp only
        rw [chunkWords_chunksOf]
        simp [splitWs, splitWsAux]
      · rw [if_neg hlong, chunkWords]
        simp only
        rw [chunkWords_chunksOf, chunkWords]

theorem foldl_sentenceStep_words (m : Nat) (ss : List (List Char)) :
    ∀ st, chunkWords (ss.foldl (sentenceStep m) st)
      = chunkWords st ++ (ss.map splitWs).flatten := by
  induction ss with
  | nil => intro st; simp
  | cons s t ih =>
    intro st
    rw [List.foldl_cons, ih, sentenceStep_words]
    simp

theorem reSplitAux_words : ∀ (n : Nat) (l acc : List Char), l.length ≤ n →
    ((reSplitAux acc l).map splitWs).flatten = splitWs (acc.reverse ++ l) := by
  intro n
  induction n with
  | zero =>
    intro l acc hl
    have hl0 : l = [] := List.length_eq_zero.mp (by omega)
    subst hl0
    rw [reSplitAux]
    simp
  | succ n ih =>
    intro l acc hl
    match l with
    | [] =>
      rw [reSplitAux]
      simp
    | c :: rest =>
      rw [reSplitAux]
      by_cases hcond : isSentEnd acc.head? && isWs c
      · rw [if_pos hcond]
        have hwsc : isWs c := by
          simp only [Bool.and_eq_true] at hcond
          exact hcond.2
        rw [List.map_cons, List.flatten_cons]
        rw [ih (rest.dropWhile isWs) []
          (by have := dropWhile_length_le isWs rest; simp at hl; omega)]
        simp only [List.reverse_nil, List.nil_append]
        rw [show splitWs (rest.dropWhile isWs) = splitWs rest from splitWsAux_dropWhile rest]
        rw [splitWs_append_ws hwsc]
      · rw [if_neg hcond]
        rw [ih rest (c :: acc) (by simp at hl; omega)]
        rw [List.reverse_cons, List.append_assoc]
        rfl

theorem reSplitSentences_words (t : List Char) :
    ((reSplitSentences t).map splitWs).flatten = splitWs t := by
  rw [reSplitSentences, reSplitAux_words t.length t [] (le_refl _)]
  rfl

/-- Word preservation for `chunk_text`: the chunks joined by single spaces
carry exactly the words of the input. -/
theorem chunk_text_words (t : List Char) (m : Nat) :
    splitWs (joinSpace (chunk_text t m)) = splitWs t := by
  rw [chunk_text]
  by_cases hshort : t.length ≤ m
  · rw [if_pos hshort]
    simp [joinSpace]
  · rw [if_neg hshort, chunkFinish]
    by_cases hempty : chunksOf ((reSplitSentences t).foldl (sentenceStep m) ([], [])) = []
    · rw [if_pos hempty]
      simp [joinSpace]
    · rw [if_neg hempty]
      rw [splitWs_joinSpace_flatten, chunkWords_chunksOf, foldl_sentenceStep_words,
          reSplitSentences_words]
      rw [show chunkWords ([], []) = [] from rfl]
      rfl

theorem pyStrip_length_le (s : List Char) : (pyStrip s).length ≤ s.length := by
  rw [pyStrip]
  simp only [List.length_reverse]
  calc ((s.dropWhile isWs).reverse.dropWhile isWs).length
      ≤ (s.dropWhile isWs).reverse.length := dropWhile_length_le _ _
    _ = (s.dropWhile isWs).length := by simp
    _ ≤ s.length := dropWhile_length_le _ _

/-- The chunk property of C7: within the limit, or whitespace-free (a
"single word"). -/
def chunkP (m : Nat) (ch : List Char) : Prop :=
  ch.length ≤ m ∨ ∀ c ∈ ch, ¬ isWs c = true

theorem chunksOf_P {P : List Char → Prop} {st : List (List Char) × List Char}
    (h1 : ∀ ch ∈ st.1, P ch) (h2 : P st.2) : ∀ ch ∈ chunksOf st, P ch := by
  rw [chunksOf]
  split
  · exact h1
  · intro ch hch
    rcases List.mem_append.mp hch with h | h
    · exact h1 ch h
    · rw [List.mem_singleton.mp h]
      exact h2

theorem joinPair_P (m : Nat) (a b : List Char) (hb : ∀ c ∈ b, ¬ isWs c = true)
    (hlen : a.length + b.length + 1 ≤ m) : chunkP m (joinPair a b) := by
  rw [joinPair]
  split
  · exact Or.inr hb
  · left
    have := pyStrip_length_le (a ++ ' ' :: b)
    simp only [List.length_append, List.length_cons] at this
    omega

theorem wordStep_P (m : Nat) (st : List (List Char) × List Char) (w : List Char)
    (hw : ∀ c ∈ w, ¬ isWs c = true) (h1 : ∀ ch ∈ st.1, chunkP m ch)
    (h2 : chunkP m st.2) :
    (∀ ch ∈ (wordStep m st w).1, chunkP m ch) ∧ chunkP m (wordStep m st w).2 := by
  rw [wordStep]
  split
  · exact ⟨h1, joinPair_P m st.2 w hw (by omega)⟩
  · exact ⟨chunksOf_P h1 h2, Or.inr hw⟩

theorem foldl_wordStep_P (m : Nat) (ws : List (List Char))
    (hws : ∀ w ∈ ws, ∀ c ∈ w, ¬ isWs c = true) :
    ∀ st, (∀ ch ∈ st.1, chunkP m ch) → chunkP m st.2 →
      (∀ ch ∈ (ws.foldl (wordStep m) st).1, chunkP m ch)
        ∧ chunkP m (ws.foldl (wordStep m) st).2 := by
  induction ws with
  | nil => intro st h1 h2; exact ⟨h1, h2⟩
  | cons w t ih =>
    intro st h1 h2
    rw [List.foldl_cons]
    have hstep := wordStep_P m st w (hws w (by simp)) h1 h2
    exact ih (fun v hv c hc => hws v (by simp [hv]) c hc) _ hstep.1 hstep.2

theorem sentenceStep_P (m : Nat) (st : List (List Char) × List Char) (s : List Char)
    (h1 : ∀ ch ∈ st.1, chunkP m ch) (h2 : chunkP m st.2) :
    (∀ ch ∈ (sentenceStep m st s).1, chunkP m ch) ∧ chunkP m (sentenceStep m st s).2 := by
  rw [sentenceStep]
  split
  · exact ⟨h1, h2⟩
  · split
    · refine ⟨h1, ?_⟩
      dsimp only
      rw [joinPair]
      split
      · left
        omega
      · left
        have := pyStrip_length_le (st.2 ++ ' ' :: s)
        simp only [List.length_append, List.length_cons] at this
        omega
    · split
      · exact foldl_wordStep_P m (splitWs s)
          (fun w hw c hc => (splitWsAux_sound (by simp) w hw).2 c hc)
          (chunksOf st, []) (chunksOf_P h1 h2) (Or.inl (by simp))
      · refine ⟨chunksOf_P h1 h2, Or.inl ?_⟩
        dsimp only
        omega

theorem foldl_sentenceStep_P (m : Nat) (ss : List (List Char)) :
    ∀ st, (∀ ch ∈ st.1, chunkP m ch) → chunkP m st.2 →
      (∀ ch ∈ (ss.foldl (sentenceStep m) st).1, chunkP m ch)
        ∧ chunkP m (ss.foldl (sentenceStep m) st).2 := by
  induction ss with
  | nil => intro st h1 h2; exact ⟨h1, h2⟩
  | cons s t ih =>
    intro st h1 h2
    rw [List.foldl_cons]
    have hstep := sentenceStep_P m st s h1 h2
    exact ih _ hstep.1 hstep.2

theorem splitWsAux_ne_nil_of_cur : ∀ (l cur : List Char), cur ≠ [] → splitWsAux cur l ≠ [] := by
  intro l
  induction l with
  | nil =>
    intro cur hcur
    rw [splitWsAux]
    rw [if_neg (by simpa [List.isEmpty_iff] using hcur)]
    simp
  | cons c l ih =>
    intro cur hcur
    rw [splitWsAux]
    by_cases hc : isWs c
    · rw [if_pos hc, if_neg (by simpa [List.isEmpty_iff] using hcur)]
      simp
    · rw [if_neg hc]
      exact ih (c :: cur) (by simp)

theorem splitWsAux_ne_nil_of_mem : ∀ (l : List Char) (cur : List Char) (c : Char),
    c ∈ l → ¬ isWs c = true → splitWsAux cur l ≠ [] := by
  intro l
  induction l with
  | nil =>
    intro cur c hc
    simp at hc
  | cons d l ih =>
    intro cur c hc hnw
    rcases List.mem_cons.mp hc with h | h
    · subst h
      rw [splitWsAux, if_neg hnw]
      exact splitWsAux_ne_nil_of_cur l (c :: cur) (by simp)
    · rw [splitWsAux]
      by_cases hd : isWs d
      · rw [if_pos hd]
        by_cases hcur : cur.isEmpty
        · rw [if_pos hcur]
          exact ih [] c h hnw
        · rw [if_neg hcur]
          simp
      · rw [if_neg hd]
        exact ih (d :: cur) c h hnw

/-- C7 as stated by the spec: every chunk fits in `m` unless it is a single
overlong word, and joining the chunks with single spaces and stripping
recovers the whitespace-normalised input. -/
def claimC7Statement (t : List Char) (m : Nat) : Prop :=
  (∀ ch ∈ chunk_text t m, ch.length ≤ m ∨ (m < ch.length ∧ ∀ c ∈ ch, ¬ isWs c = true))
    ∧ pyStrip (joinSpace (chunk_text t m)) = normalizeWs t

/-- C7 counterexample: `chunk_text "x  y" 250 = ["x  y"]`, and
`"x  y".strip() ≠ "x y"` — internal whitespace runs survive chunking, so
the joined chunks do not equal the whitespace-normalised input. -/
theorem claim_C7_counterexample : ¬ claimC7Statement ['x', ' ', ' ', 'y'] 250 := by
  intro h
  exact absurd h.2 (by decide)

/-- C7 amended: every chunk fits in `m` or is whitespace-free (the
overlong-single-word case), provided the input is within the limit or
contains a non-whitespace character (an all-whitespace overlong input is
returned verbatim as one overlong chunk); and the chunks preserve the
input's *words*: joining them with single spaces and normalising
whitespace recovers the whitespace-normalised input (plain join+strip does
not, since whitespace runs inside a kept sentence survive). -/
theorem claim_C7_chunk_text_amended (t : List Char) (m : Nat) :
    ((t.length ≤ m ∨ ∃ c ∈ t, ¬ isWs c = true) →
        ∀ ch ∈ chunk_text t m, ch.length ≤ m ∨ ∀ c ∈ ch, ¬ isWs c = true)
      ∧ splitWs (joinSpace (chunk_text t m)) = splitWs t
      ∧ normalizeWs (joinSpace (chunk_text t m)) = normalizeWs t := by
  refine ⟨?_, chunk_text_words t m, ?_⟩
  · intro hyp ch hch
    rw [chunk_text] at hch
    by_cases hshort : t.length ≤ m
    · rw [if_pos hshort] at hch
      rw [List.mem_singleton.mp hch]
      exact Or.inl hshort
    · rw [if_neg hshort, chunkFinish] at hch
      by_cases hempty : chunksOf ((reSplitSentences t).foldl (sentenceStep m) ([], [])) = []
      · exfalso
        rcases hyp with hyp | ⟨c, hcmem, hcnw⟩
        · exact hshort hyp
        · have hw : splitWs t = [] := by
            have hcw := chunkWords_chunksOf ((reSplitSentences t).foldl (sentenceStep m) ([], []))
            rw [hempty] at hcw
            rw [foldl_sentenceStep_words, reSplitSentences_words] at hcw
            simpa [chunkWords, splitWs, splitWsAux] using hcw.symm
          exact splitWsAux_ne_nil_of_mem t [] c hcmem hcnw hw
      · rw [if_neg hempty] at hch
        exact chunksOf_P
          (foldl_sentenceStep_P m (reSplitSentences t) ([], []) (by simp)
            (Or.inl (by simp))).1
          (foldl_sentenceStep_P m (reSplitSentences t) ([], []) (by simp)
            (Or.inl (by simp))).2 ch hch
  · rw [normalizeWs, normalizeWs, chunk_text_words]

end VoiceBackend
